import Mathlib

/-!
Verification of the vcpkg portfile-to-Flatpak-manifest generator
(src/vcpkg/vcpkg.py).  The development shallowly embeds the descriptor
extraction helpers, the version resolver, the breadth-first dependency
crawl of main, the dependency-graph construction, and the Kahn
topological sort, and proves the specification claims about them.

Modelling conventions:
* Python strings are Lean `String`s; Python string operations
  (strip, lstrip, replace, startswith, split, sorted, set/dict
  deduplication) are re-implemented on the underlying character lists so
  that their behaviour matches CPython.
* The ad-hoc regular-expression *matching* layer is abstracted: each
  `re.search` result that the code branches on becomes an input record
  (for example `DistfileMatch` holds the captured groups of the
  `vcpkg_download_distfile` search, with `none` for an absent optional
  group).  Everything the code does *after* a match - all branching,
  substitution, cleaning, assembling - is translated line by line.
* Filesystem reads become inputs: the optional sibling `vcpkg.json`
  is `Option (Except Unit VcpkgJson)` (`none` = file absent,
  `Except.error` = the yaml parse raised) and the ports tree is an
  association list from package name to its parsed portfile data.
* Python `dict`s are insertion-ordered association lists, Python `set`s
  are lists managed with membership-guarded insertion.
-/

abbrev Name := String

/-! Python string-operation helpers, re-implemented on character lists. -/

/-- Word character class `[A-Za-z0-9_]` of the regex dialect. -/
def wordChar (c : Char) : Bool :=
  (('a' ≤ c && c ≤ 'z') || ('A' ≤ c && c ≤ 'Z') || ('0' ≤ c && c ≤ '9') || c == '_')

/-- Drop the trailing run of characters satisfying `p`. -/
def dropTrailWhile (p : Char → Bool) (l : List Char) : List Char :=
  (l.reverse.dropWhile p).reverse

/-- Python `str.strip()`: remove leading and trailing whitespace. -/
def pyStripWs (l : List Char) : List Char :=
  dropTrailWhile Char.isWhitespace (l.dropWhile Char.isWhitespace)

/-- Python `str.strip(c)` for a single character `c`: remove leading and
trailing runs of that character. -/
def pyStripChar (c : Char) (l : List Char) : List Char :=
  dropTrailWhile (fun x => x == c) (l.dropWhile (fun x => x == c))

/-- Python `str.replace(pat, rep)` engine: scan left to right, replacing
non-overlapping occurrences.  The `Nat` argument counts characters still
to be copied over verbatim after a match (the matched characters minus
the one consumed by the pattern head). -/
def replAux (pat rep : List Char) : Nat → List Char → List Char
  | _, [] => []
  | k+1, _ :: cs => replAux pat rep k cs
  | 0, c :: cs =>
    if !pat.isEmpty && pat.isPrefixOf (c :: cs)
    then rep ++ replAux pat rep (pat.length - 1) cs
    else c :: replAux pat rep 0 cs

/-- Python `s.replace(pat, rep)` (for the non-empty patterns the code uses). -/
def pyReplace (s pat rep : String) : String :=
  ⟨replAux pat.data rep.data 0 s.data⟩

/-- Substring containment, Python `pat in s`. -/
def containsSub (l pat : List Char) : Bool :=
  (List.range (l.length + 1)).any (fun i => pat.isPrefixOf (l.drop i))

/-- Python `pat in s` on strings. -/
def pyContains (s pat : String) : Bool := containsSub s.data pat.data

/-- Python `s.startswith(pre)`. -/
def pyStartsWith (s pre : String) : Bool := pre.data.isPrefixOf s.data

/-- Python `s.lstrip('vV')`: remove the maximal leading run of characters
drawn from the set \x7b 'v', 'V' \x7d. -/
def pyLstripVV (s : String) : String :=
  ⟨s.data.dropWhile (fun c => c == 'v' || c == 'V')⟩

/-- Python `dict.fromkeys` deduplication: keep the first occurrence of
each element, preserving order.  `seen` accumulates already-kept keys. -/
def pyDedupAux {α : Type} [BEq α] (seen : List α) : List α → List α
  | [] => []
  | x :: xs => if seen.contains x then pyDedupAux seen xs else x :: pyDedupAux (x :: seen) xs

/-- Order-preserving first-occurrence deduplication (Python
`list(dict.fromkeys(l).keys())`). -/
def pyDedup {α : Type} [BEq α] (l : List α) : List α := pyDedupAux [] l

/-- Python string comparison: lexicographic on code points. -/
def leChars : List Char → List Char → Bool
  | [], _ => true
  | _ :: _, [] => false
  | a :: as, b :: bs => a < b || (a == b && leChars as bs)

/-- Python `a <= b` on strings. -/
def pyLeStr (a b : String) : Bool := leChars a.data b.data

/-- Insertion step of the sort used to model Python `sorted`. -/
def insertSorted (x : String) : List String → List String
  | [] => [x]
  | y :: ys => if pyLeStr x y then x :: y :: ys else y :: insertSorted x ys

/-- Python `sorted` on a list of strings (code-point lexicographic). -/
def pySortStrings (l : List String) : List String := l.foldr insertSorted []

/-- Split a character list at newline characters.  Together with the
per-token strip and non-empty filter this models
`[s.strip() for s in re.split(r'\s*\n\s*', block) if s.strip()]`:
every newline is consumed by some separator of that regex and the
residual whitespace is removed by the strip. -/
def splitLinesL (l : List Char) : List (List Char) :=
  l.foldr (fun c acc =>
    match acc with
    | [] => if c == '\n' then [[], []] else [[c]]
    | h :: t => if c == '\n' then [] :: h :: t else (c :: h) :: t) [[]]

/-! Descriptor extractor: CMake option cleaning (vcpkg.py lines 20-60). -/

/-- Path-placeholder rewrites applied to every option, in source order
(vcpkg.py lines 31-34). -/
def pathReplacements : List (String × String) :=
  [("$\x7bCURRENT_HOST_INSTALLED_DIR\x7d/tools/protobuf/protoc$\x7bVCPKG_HOST_EXECUTABLE_SUFFIX\x7d",
    "/app/vendor/bin/protoc"),
   ("$\x7bCURRENT_INSTALLED_DIR\x7d", "/app/vendor"),
   ("$\x7bCURRENT_HOST_INSTALLED_DIR\x7d", "/app/vendor"),
   ("$\x7bCURRENT_PACKAGES_DIR\x7d", "/app/vendor")]

/-- Option prefixes dropped as vcpkg-specific (vcpkg.py lines 39-47). -/
def dropTable : List String :=
  ["-DCMAKE_TOOLCHAIN_FILE", "-DVCPKG_TARGET_TRIPLET", "-DVCPKG_SET_CHARSET_FLAG",
   "-DDLL_OUT_DIR", "-DARCHIVE_OUT_DIR", "-DCMAKE_DEBUG_POSTFIX",
   "-D_VCPKG_NO_DEFAULT_PATH_W", "-D_VCPKG_FIND_ROOT_PATH_", "-DCMAKE_MFC_FLAG"]

/-- Option prefixes dropped as vcpkg INSTALL_DIRS conventions
(vcpkg.py lines 54-57). -/
def grpcTable : List String :=
  ["-DgRPC_INSTALL_BINDIR", "-DgRPC_INSTALL_LIBDIR",
   "-DgRPC_INSTALL_INCLUDEDIR", "-DgRPC_INSTALL_CMAKEDIR"]

/-- Match of `re.match(r'\$\x7b\w+_FEATURE_OPTIONS\x7d', opt)`: the option
starts with a dollar and open brace, then at least one word character,
then the literal `_FEATURE_OPTIONS` and a closing brace. -/
def featureVarMatch (l : List Char) : Bool :=
  match l with
  | '$' :: c2 :: rest =>
    c2 == '\x7b' && (List.range rest.length).any (fun k =>
      ((rest.take (k+1)).all wordChar) &&
        ("_FEATURE_OPTIONS\x7d".data.isPrefixOf (rest.drop (k+1))))
  | _ => false

/-- Translation of `_clean_cmake_option` (vcpkg.py lines 20-60). -/
def clean_cmake_option (packageVersion : String) (opt0 : String) : Option String :=
  let opt : String := ⟨pyStripChar '\'' (pyStripChar '"' (pyStripWs opt0.data))⟩
  if opt.data.isEmpty || pyStartsWith opt "#" then none
  else if pyContains opt "$\x7bFEATURE_OPTIONS\x7d" || featureVarMatch opt.data then none
  else
    let opt1 := pathReplacements.foldl (fun s pr => pyReplace s pr.1 pr.2) opt
    let opt2 := pyReplace opt1 "$\x7bVERSION\x7d" packageVersion
    if dropTable.any (fun p => pyStartsWith opt2 p) ||
       pyContains opt2 "VCPKG_CRT_LINKAGE" || pyContains opt2 "VCPKG_LIBRARY_LINKAGE" then none
    else if grpcTable.any (fun p => pyStartsWith opt2 p) then none
    else some opt2

/-- Essential Flatpak CMake options (vcpkg.py lines 202-206). -/
def essentialOpts : List String :=
  ["-DCMAKE_BUILD_TYPE=Release", "-DCMAKE_INSTALL_PREFIX=/app/vendor",
   "-DCMAKE_POSITION_INDEPENDENT_CODE=ON"]

/-- Raw option tokens of the configure-options block (vcpkg.py line 193):
split at newlines, strip each token, keep the non-empty ones.  The block
itself is the captured `OPTIONS` region of the `vcpkg_cmake_configure`
search, abstracted as an optional input (`none` = no match). -/
def rawOptsOf (optionsBlock : Option String) : List String :=
  match optionsBlock with
  | none => []
  | some blk =>
    (((splitLinesL blk.data).map pyStripWs).filter (fun l => !l.isEmpty)).map
      (fun l => (⟨l⟩ : String))

/-- Surviving cleaned options (vcpkg.py lines 195-199); an option is kept
when `_clean_cmake_option` returns a truthy (non-empty) string. -/
def cleanedOpts (optionsBlock : Option String) (version : String) : List String :=
  (rawOptsOf optionsBlock).filterMap (fun o =>
    match clean_cmake_option version o with
    | some s => if s.data.isEmpty then none else some s
    | none => none)

/-- Translation of `_parse_cmake_options` (vcpkg.py lines 182-210): the
essential options are prepended, the list is deduplicated keeping first
occurrences, and the final `sorted(...)` orders the result
lexicographically. -/
def parse_cmake_options (optionsBlock : Option String) (version : String) : List String :=
  pySortStrings (pyDedup (essentialOpts ++ cleanedOpts optionsBlock version))

/-! Source-acquisition parsers (vcpkg.py lines 64-180). -/

/-- The x-checker-data payload attached to a source.  The constant
tag-pattern strings of the code are implicit in the constructors; the
`url-pattern` of the html variant (built with `re.escape`) is kept
symbolically as the pair of inputs it is built from. -/
inductive XCheck where
  | emptyDict : XCheck
  | githubRelease (repo : String) : XCheck
  | htmlPage (baseUrl : String) (origUrl : String) (version : String) : XCheck
  | gitTag (url : String) : XCheck
deriving DecidableEq, Repr

/-- A manifest source entry (the dicts appended to `sources`). -/
inductive Source where
  | archive (url : String) (sha512 : String) (xcheck : XCheck) (extractStrip : Nat) : Source
  | git (url : String) (tag : String) (xcheck : XCheck) : Source
  | file (path : String) : Source
deriving DecidableEq, Repr

/-- Captured groups of the `vcpkg_download_distfile` search (vcpkg.py
lines 66-74) together with the `NO_REMOVE_ONE_LEVEL` group of the
`vcpkg_extract_source_archive` search (lines 114-122); `none` in
`urlsStr`/`sha512` models an unmatched optional group, and the whole
record is `none` when the search itself fails. -/
structure DistfileMatch where
  archiveVar : String
  urlsStr : Option String
  sha512 : Option String
  noRemoveOneLevel : Bool
deriving DecidableEq, Repr

/-- Captured group of the `vcpkg_from_github` search (vcpkg.py lines
144-151): the REPO field. -/
structure GithubMatch where
  repo : String
deriving DecidableEq, Repr

/-- Character class `[^\s,"]` of the URL-extraction regex. -/
def urlChar (c : Char) : Bool := !(c.isWhitespace || c == ',' || c == '"')

/-- Scan for all matches of `https?://[^\s,"]+` (vcpkg.py line 86).  The
`Nat` argument skips over the remainder of an already-emitted match. -/
def findUrlsAux : Nat → List Char → List (List Char)
  | _, [] => []
  | k+1, _ :: cs => findUrlsAux k cs
  | 0, c :: cs =>
    let l := c :: cs
    let run := l.takeWhile urlChar
    if "https://".data.isPrefixOf l && 8 < run.length then
      run :: findUrlsAux (run.length - 1) cs
    else if "http://".data.isPrefixOf l && 7 < run.length then
      run :: findUrlsAux (run.length - 1) cs
    else findUrlsAux 0 cs

/-- Python `re.findall(r'https?://[^\s,"]+', s)`. -/
def findUrls (s : String) : List String := (findUrlsAux 0 s.data).map (fun l => ⟨l⟩)

/-- Python `u.rsplit('/', 1)[0]`: everything before the last slash, or
the whole string when it has no slash. -/
def baseUrlOf (u : String) : String :=
  if u.data.contains '/' then
    ⟨((u.data.reverse.dropWhile (fun c => !(c == '/'))).tail).reverse⟩
  else u

/-- Match of `re.match(r'https://github.com/([^/]+/[^/]+)/releases/download', u)`
returning the captured repo slug. -/
def repoReleaseMatch (u : String) : Option String :=
  let pre := "https://github.com/"
  if pre.data.isPrefixOf u.data then
    let rest := u.data.drop pre.data.length
    let seg1 := rest.takeWhile (fun c => !(c == '/'))
    let rest1 := rest.drop seg1.length
    match rest1 with
    | '/' :: rest2 =>
      let seg2 := rest2.takeWhile (fun c => !(c == '/'))
      let rest3 := rest2.drop seg2.length
      if !seg1.isEmpty && !seg2.isEmpty && "/releases/download".data.isPrefixOf rest3 then
        some ⟨seg1 ++ '/' :: seg2⟩
      else none
    | _ => none
  else none

/-- Auto-generated x-checker-data for archive sources (vcpkg.py lines
92-110). -/
def mkArchiveXCheck (urls : List String) (version : String) : XCheck :=
  match urls with
  | [] => XCheck.emptyDict
  | u :: _ =>
    if pyContains u "github.com" then
      match repoReleaseMatch u with
      | some repo => XCheck.githubRelease repo
      | none => XCheck.emptyDict
    else XCheck.htmlPage (baseUrlOf u) u version

/-- Translation of `_parse_vcpkg_download_distfile` (vcpkg.py lines
64-140).  The patch filenames found by the `PATCHES` findall are
abstracted as the `patches` input; the claims hold for every such list. -/
def parse_vcpkg_download_distfile (m : Option DistfileMatch) (patches : List String)
    (packageVersion : String) : Option (List Source × List String) :=
  match m with
  | none => none
  | some dm =>
    let sources : List Source :=
      match dm.urlsStr with
      | none => []
      | some us0 =>
        let us := pyReplace us0 "$\x7bVERSION\x7d" packageVersion
        let urls := findUrls us
        let sha : String :=
          match dm.sha512 with
          | some s => ⟨s.data.map Char.toLower⟩
          | none => "UNKNOWN_SHA512"
        let strip : Nat := if dm.noRemoveOneLevel then 0 else 1
        [Source.archive (urls.headD "") sha (mkArchiveXCheck urls packageVersion) strip]
    some (sources, patches)

/-- Translation of `_parse_vcpkg_from_github` (vcpkg.py lines 142-180).
The tag is the resolved version, `lstrip('vV')`-stripped when it starts
with a version prefix character. -/
def parse_vcpkg_from_github (m : Option GithubMatch) (patches : List String)
    (packageVersion : String) : Option (List Source × List String) :=
  match m with
  | none => none
  | some gm =>
    let url := "https://github.com/" ++ gm.repo ++ ".git"
    let tag := if pyStartsWith packageVersion "v" || pyStartsWith packageVersion "V"
               then pyLstripVV packageVersion else packageVersion
    some ([Source.git url tag (XCheck.gitTag url)], patches)

/-! Version resolver (vcpkg.py lines 260-270). -/

/-- Fields of the sibling `vcpkg.json` metadata file that the resolver
reads. -/
structure VcpkgJson where
  version : Option String
  versionString : Option String
deriving DecidableEq, Repr

/-- Python `a or b` on optional strings: `None` and the empty string are
falsy. -/
def pyOrStr (a b : Option String) : Option String :=
  match a with
  | some s => if s.data.isEmpty then b else some s
  | none => b

/-- Translation of the version-resolution block of `parse_vcpkg_portfile`
(vcpkg.py lines 260-270).  The input is `none` when no `vcpkg.json`
exists and `Except.error` when reading or yaml-parsing it raised (both
leave the sentinel in place); the result is `none` exactly when the file
parsed but carried neither field - Python then keeps `None` as the
version.  Only a leading lowercase `v` is stripped, and only when the
value is truthy. -/
def resolveVersion (mj : Option (Except Unit VcpkgJson)) : Option String :=
  match mj with
  | none => some "UNKNOWN_VERSION"
  | some (Except.error _) => some "UNKNOWN_VERSION"
  | some (Except.ok j) =>
    match pyOrStr j.version j.versionString with
    | none => none
    | some v => some (if !v.data.isEmpty && pyStartsWith v "v" then ⟨v.data.tail⟩ else v)

/-! Portfile extraction (vcpkg.py lines 252-314). -/

/-- All abstracted regex-search results for one portfile text: the two
acquisition matches, the two patch-filename lists, and the captured
configure-options block. -/
structure PortMatches where
  distfile : Option DistfileMatch
  github : Option GithubMatch
  distfilePatches : List String
  githubPatches : List String
  optionsBlock : Option String
deriving DecidableEq, Repr

/-- The normalized module record assembled for one package. -/
structure ModuleRecord where
  name : Name
  builddir : Bool
  sources : List Source
  buildsystem : String
  configOpts : List String
  installCommands : List String
deriving DecidableEq, Repr

/-- The common CMake install command (vcpkg.py lines 307-308). -/
def installCmd : String := "cmake --build . --target install"

/-- Acquisition dispatch of `parse_vcpkg_portfile` (vcpkg.py lines
283-296): the distfile idiom is tried first and wins whenever its search
matched at all; otherwise the github idiom; otherwise sources stay
empty.  Note a successful distfile parse is a (truthy) pair even when
its source list is empty. -/
def acquireSources (pm : PortMatches) (version : String) : List Source × List String :=
  match parse_vcpkg_download_distfile pm.distfile pm.distfilePatches version with
  | some r => r
  | none =>
    match parse_vcpkg_from_github pm.github pm.githubPatches version with
    | some r => r
    | none => ([], [])

/-- Translation of the module-assembly part of `parse_vcpkg_portfile`
(vcpkg.py lines 272-314), taking the resolved version as input.
`sorted(list(set(all_patches)))` becomes sort-after-deduplication, which
computes the same deterministic list. -/
def moduleOfPortfile (name : Name) (pm : PortMatches) (version : String) : ModuleRecord :=
  let sp := acquireSources pm version
  let patchList := pySortStrings (pyDedup sp.2)
  let sources := sp.1 ++ patchList.map (fun p => Source.file ("patches/" ++ p))
  let installs0 := patchList.map (fun p => "patch -p1 < " ++ p)
  let installs := if installs0.isEmpty || !installs0.contains installCmd
                  then installs0 ++ [installCmd] else installs0
  ModuleRecord.mk name true sources "cmake" (parse_cmake_options pm.optionsBlock version) installs

/-! Topological sort (vcpkg.py lines 318-345).  The graph is a Python
dict from node name to its iterable of successors: an insertion-ordered
association list. -/

abbrev Graph := List (Name × List Name)

/-- Keys of the graph dict, in insertion order. -/
def keysOf (g : Graph) : List Name := g.map Prod.fst

/-- Dict lookup `graph[u]` as an option. -/
def lookupSuccs (g : Graph) (u : Name) : Option (List Name) :=
  (g.find? (fun p => p.1 == u)).map Prod.snd

/-- Successor list of `u` (empty for a non-key). -/
def succsOf (g : Graph) (u : Name) : List Name := (lookupSuccs g u).getD []

/-- Edge relation of the graph: `a` is a key and `b` one of its successors. -/
def EdgeOf (g : Graph) (a b : Name) : Prop := a ∈ keysOf g ∧ b ∈ succsOf g a

/-- Every successor mentioned anywhere is itself a key (the precondition
under which the in-degree computation cannot raise `KeyError`). -/
def ClosedGraph (g : Graph) : Prop := ∀ p ∈ g, ∀ v ∈ p.2, v ∈ keysOf g

/-- The graph has no directed cycle. -/
def Acyclic (g : Graph) : Prop := ∀ a, ¬ Relation.TransGen (EdgeOf g) a a

/-- One `in_degree[v] += 1` step (vcpkg.py line 323): `KeyError` (modelled
as `none`) when `v` is not a key of the in-degree dict, whose keys are
exactly the graph keys. -/
def bumpDeg (keys : List Name) (deg : Name → Int) (v : Name) : Option (Name → Int) :=
  if v ∈ keys then some (fun x => if x = v then deg x + 1 else deg x) else none

/-- Translation of the in-degree computation (vcpkg.py lines 320-323):
start every key at 0, then bump once per edge, failing on a successor
that is not a key. -/
def computeInDegree (g : Graph) : Option (Name → Int) :=
  g.foldlM (fun deg p => p.2.foldlM (bumpDeg (keysOf g)) deg) (fun _ => (0 : Int))

/-- One `in_degree[v] -= 1` step (vcpkg.py line 332). -/
def decDeg (deg : Name → Int) (v : Name) : Name → Int :=
  fun x => if x = v then deg x - 1 else deg x

/-- Inner loop of the Kahn iteration (vcpkg.py lines 331-334): decrement
each successor of the popped node, appending to the queue those that
reach zero. -/
def processSuccs (deg : Name → Int) (queue : List Name) : List Name → (Name → Int) × List Name
  | [] => (deg, queue)
  | v :: vs =>
    let d := decDeg deg v
    processSuccs d (if d v = 0 then queue ++ [v] else queue) vs

/-- All successor occurrences of the graph, concatenated. -/
def allSuccs (g : Graph) : List Name := (g.map Prod.snd).flatten

/-- Weight 1 for a strictly positive in-degree, 0 otherwise. -/
def wt (deg : Name → Int) (v : Name) : Nat := if 0 < deg v then 1 else 0

/-- Termination potential of the Kahn loop: number of distinct successor
names whose current in-degree is still positive. -/
def degWeight (g : Graph) (deg : Name → Int) : Nat :=
  ((allSuccs g).dedup.map (wt deg)).sum

theorem sum_map_update {v : Name} (f fn : Name → Nat) (h : ∀ x, x ≠ v → fn x = f x) :
    ∀ L : List Name, L.Nodup → v ∈ L →
      (L.map fn).sum + f v = (L.map f).sum + fn v := by
  intro L
  induction L with
  | nil => simp
  | cons a t ih =>
    intro hnd hmem
    rcases List.mem_cons.mp hmem with hva | ht
    · subst hva
      have hnotin : v ∉ t := (List.nodup_cons.mp hnd).1
      have ht2 : t.map fn = t.map f :=
        List.map_congr_left (fun x hx => h x (fun he => hnotin (he ▸ hx)))
      simp only [List.map_cons, List.sum_cons, ht2]
      omega
    · have hav : a ≠ v := by
        intro he; exact (List.nodup_cons.mp hnd).1 (he ▸ ht)
      have hfa : fn a = f a := h a hav
      have := ih (List.nodup_cons.mp hnd).2 ht
      simp only [List.map_cons, List.sum_cons, hfa]
      omega

theorem processSuccs_measure (g : Graph) :
    ∀ (vs : List Name) (deg : Name → Int) (queue : List Name),
      (∀ v ∈ vs, v ∈ (allSuccs g).dedup) →
      (processSuccs deg queue vs).2.length + degWeight g (processSuccs deg queue vs).1
        = queue.length + degWeight g deg := by
  intro vs
  induction vs with
  | nil => intro deg queue _; simp [processSuccs]
  | cons v vs ih =>
    intro deg queue hvs
    have hv : v ∈ (allSuccs g).dedup := hvs v (List.mem_cons_self _ _)
    have hrest : ∀ x ∈ vs, x ∈ (allSuccs g).dedup :=
      fun x hx => hvs x (List.mem_cons_of_mem _ hx)
    rw [show processSuccs deg queue (v :: vs)
        = processSuccs (decDeg deg v)
            (if decDeg deg v v = 0 then queue ++ [v] else queue) vs from rfl]
    rw [ih _ _ hrest]
    have hupd : ∀ x, x ≠ v → wt (decDeg deg v) x = wt deg x := by
      intro x hx; simp [wt, decDeg, hx]
    have hsum := sum_map_update (wt deg) (wt (decDeg deg v)) hupd
      (allSuccs g).dedup (List.nodup_dedup _) hv
    by_cases h1 : decDeg deg v v = 0
    · have hd : decDeg deg v v = deg v - 1 := by simp [decDeg]
      have hw0 : wt (decDeg deg v) v = 0 := by simp [wt, h1]
      have hw1 : wt deg v = 1 := by
        unfold wt
        rw [hd] at h1
        rw [if_pos (by omega)]
      rw [hw1, hw0] at hsum
      simp only [h1, if_pos, degWeight] at *
      simp only [List.length_append, List.length_cons, List.length_nil]
      omega
    · have hd : decDeg deg v v = deg v - 1 := by simp [decDeg]
      have hww : wt (decDeg deg v) v = wt deg v := by
        unfold wt
        rw [hd]
        rw [hd] at h1
        by_cases hpos : (0:Int) < deg v - 1
        · rw [if_pos hpos, if_pos (by omega)]
        · rw [if_neg hpos, if_neg (by omega)]
      rw [hww] at hsum
      simp only [h1, if_neg, not_false_iff, degWeight] at *
      omega

theorem succsOf_mem_allSuccs (g : Graph) (u : Name) :
    ∀ v ∈ succsOf g u, v ∈ (allSuccs g).dedup := by
  intro v hv
  apply List.mem_dedup.mpr
  unfold succsOf lookupSuccs at hv
  cases hfind : g.find? (fun p => p.1 == u) with
  | none => simp [hfind] at hv
  | some p =>
    simp only [hfind, Option.map_some, Option.getD_some] at hv
    have hp : p ∈ g := List.mem_of_find?_eq_some hfind
    unfold allSuccs
    exact List.mem_flatten.mpr ⟨p.2, List.mem_map_of_mem Prod.snd hp, hv⟩

/-- Translation of the Kahn while-loop (vcpkg.py lines 328-334): pop the
queue head, append it to the result, then decrement its successors.
Termination: each iteration removes a queue entry, and processing can
enqueue a name only at the moment its in-degree reaches exactly zero,
which pays for itself in the `degWeight` potential. -/
def kahnLoop (g : Graph) (deg : Name → Int) (queue sorted : List Name) : List Name :=
  match queue with
  | [] => sorted
  | u :: rest =>
    let r := processSuccs deg rest (succsOf g u)
    kahnLoop g r.1 r.2 (sorted ++ [u])
termination_by queue.length + degWeight g deg
decreasing_by
  simp_wf
  have h := processSuccs_measure g (succsOf g v) deg vs (succsOf_mem_allSuccs g v)
  omega

/-- Outcome of `topological_sort`: the sorted list, the
circular-dependency `ValueError` carrying the set of unsorted node
names (represented by its key-ordered enumeration), the unreachable
size-mismatch `ValueError`, or the uncaught `KeyError` from the
in-degree computation. -/
inductive SortResult where
  | ok (sortedNodes : List Name) : SortResult
  | cycle (remaining : List Name) : SortResult
  | unknownFailure : SortResult
  | keyError : SortResult
deriving DecidableEq, Repr

/-- Translation of `topological_sort` (vcpkg.py lines 318-345). -/
def topological_sort (g : Graph) : SortResult :=
  match computeInDegree g with
  | none => SortResult.keyError
  | some deg =>
    let queue := (keysOf g).filter (fun u => deg u == 0)
    let sortedNodes := kahnLoop g deg queue []
    if sortedNodes.length = g.length then SortResult.ok sortedNodes
    else
      let remaining := (keysOf g).filter (fun u => !sortedNodes.contains u)
      if remaining.isEmpty then SortResult.unknownFailure else SortResult.cycle remaining

/-! Dependency crawl and graph construction (vcpkg.py lines 382-438). -/

/-- Parsed portfile data for one package directory: the assembled module
record and the two dependency-name lists that `parse_vcpkg_portfile`
returns for it. -/
structure PortRec where
  modrec : ModuleRecord
  directDeps : List Name
  hostDeps : List Name
deriving DecidableEq, Repr

/-- The ports tree, modelled as an association list from package name to
parsed portfile data; a name without an entry has no `portfile.cmake`. -/
abbrev PortsTree := List (Name × PortRec)

/-- Existence-and-parse of `ports/<n>/portfile.cmake`. -/
def lookupPort (ports : PortsTree) (n : Name) : Option PortRec :=
  (ports.find? (fun p => p.1 == n)).map Prod.snd

/-- Add an element to a Python set modelled as a list (no-op when already
present). -/
def setAdd (l : List Name) (x : Name) : List Name :=
  if l.contains x then l else l ++ [x]

/-- Dict read with `defaultdict` default. -/
def getSet (m : List (Name × List Name)) (k : Name) : List Name :=
  ((m.find? (fun p => p.1 == k)).map Prod.snd).getD []

/-- Dict write, overwriting an existing entry or appending a new one. -/
def setSet (m : List (Name × List Name)) (k : Name) (v : List Name) :
    List (Name × List Name) :=
  if m.any (fun p => p.1 == k) then
    m.map (fun p => if p.1 == k then (k, v) else p)
  else m ++ [(k, v)]

/-- State of the breadth-first crawl loop of `main` (vcpkg.py lines
382-406): the pending deque, the processed set, the accumulated module
dict and dependency-set dict, plus a ghost log that records every name
the dependency scan appends to the queue (pure observation; it
influences nothing). -/
structure CrawlState where
  queue : List Name
  processed : List Name
  modules : List (Name × ModuleRecord)
  depsMap : List (Name × List Name)
  enqueueLog : List Name
deriving DecidableEq, Repr

/-- Dependency scan of one freshly processed package (vcpkg.py lines
403-406): each dependency that is neither processed nor already queued
is appended to the queue (and to the ghost log), and every dependency is
added to the package's entry of `package_deps_map`. -/
def scanDeps (processed : List Name) (current : Name) :
    List Name → List (Name × List Name) → List Name → List Name →
      List Name × (List (Name × List Name) × List Name)
  | queue, dmap, log, [] => (queue, (dmap, log))
  | queue, dmap, log, d :: ds =>
    let fresh := !processed.contains d && !queue.contains d
    let queue2 := if fresh then queue ++ [d] else queue
    let log2 := if fresh then log ++ [d] else log
    let dmap2 := setSet dmap current (setAdd (getSet dmap current) d)
    scanDeps processed current queue2 dmap2 log2 ds

theorem filter_length_mono {p q : Name → Bool} (l : List Name)
    (himp : ∀ x, q x = true → p x = true) :
    (l.filter q).length ≤ (l.filter p).length := by
  induction l with
  | nil => simp
  | cons a t ih =>
    by_cases hq : q a
    · have hp := himp a hq
      simp only [List.filter_cons, hq, hp, if_pos, List.length_cons]
      omega
    · by_cases hp : p a <;>
        simp only [List.filter_cons, hq, hp, if_pos, if_neg, Bool.false_eq_true,
          not_false_iff, List.length_cons] <;> omega

theorem filter_length_lt {p q : Name → Bool} (l : List Name)
    (himp : ∀ x, q x = true → p x = true)
    (x : Name) (hx : x ∈ l) (hpx : p x = true) (hqx : q x = false) :
    (l.filter q).length < (l.filter p).length := by
  induction l with
  | nil => cases hx
  | cons a t ih =>
    rcases List.mem_cons.mp hx with hxa | hxt
    · subst hxa
      have h1 : (t.filter q).length ≤ (t.filter p).length := filter_length_mono t himp
      simp only [List.filter_cons, hpx, hqx, if_pos, Bool.false_eq_true, if_neg,
        not_false_iff, List.length_cons]
      omega
    · by_cases hq : q a
      · have hp := himp a hq
        simp only [List.filter_cons, hq, hp, if_pos, List.length_cons]
        exact Nat.succ_lt_succ (ih hxt)
      · by_cases hp : p a
        · simp only [List.filter_cons, hq, hp, if_pos, Bool.false_eq_true, if_neg,
            not_false_iff, List.length_cons]
          exact Nat.lt_succ_of_lt (ih hxt)
        · simp only [List.filter_cons, hq, hp, Bool.false_eq_true, if_neg, not_false_iff]
          exact ih hxt

theorem lookupPort_mem {ports : PortsTree} {n : Name} {pr : PortRec}
    (h : lookupPort ports n = some pr) : n ∈ ports.map Prod.fst := by
  unfold lookupPort at h
  cases hfind : ports.find? (fun p => p.1 == n) with
  | none => rw [hfind] at h; cases h
  | some p0 =>
    have hmem : p0 ∈ ports := List.mem_of_find?_eq_some hfind
    have hbeq := List.find?_some hfind
    have hev : p0.1 = n := by simpa using hbeq
    exact hev ▸ List.mem_map_of_mem Prod.fst hmem

/-- Translation of the crawl while-loop (vcpkg.py lines 387-406).  A
dequeued name is skipped when already processed or without portfile;
otherwise its module record is stored, it is marked processed, and its
dependencies are scanned.  Termination: a skip shortens the queue, and a
processing step shrinks the set of ports-tree entries not yet
processed. -/
def crawlLoop (ports : PortsTree) (st : CrawlState) : CrawlState :=
  match hq : st.queue with
  | [] => st
  | current :: rest =>
    if hp : st.processed.contains current then
      crawlLoop ports (CrawlState.mk rest st.processed st.modules st.depsMap st.enqueueLog)
    else
      match hl : lookupPort ports current with
      | none =>
        crawlLoop ports (CrawlState.mk rest st.processed st.modules st.depsMap st.enqueueLog)
      | some pr =>
        let processed2 := st.processed ++ [current]
        let r := scanDeps processed2 current rest st.depsMap st.enqueueLog
          (pr.directDeps ++ pr.hostDeps)
        crawlLoop ports
          (CrawlState.mk r.1 processed2 (st.modules ++ [(current, pr.modrec)]) r.2.1 r.2.2)
termination_by
  (((ports.map Prod.fst).filter (fun k => !st.processed.contains k)).length, st.queue.length)
decreasing_by
  · apply Prod.Lex.right
    show rest.length < st.queue.length
    rw [hq]; simp
  · apply Prod.Lex.right
    show rest.length < st.queue.length
    rw [hq]; simp
  · apply Prod.Lex.left
    refine filter_length_lt (ports.map Prod.fst) ?_ current (lookupPort_mem hl) ?_ ?_
    · intro x hx
      simp only [Bool.not_eq_true', List.contains, List.elem_eq_mem, decide_eq_false_iff_not,
        List.mem_append] at hx ⊢
      intro hc; exact hx (Or.inl hc)
    · simp only [Bool.not_eq_true', List.contains, List.elem_eq_mem, decide_eq_false_iff_not]
      simpa using hp
    · simp [List.contains, List.elem_eq_mem]

/-- The crawl of `main`, started on the caller-supplied root names with
empty accumulators. -/
def crawl (ports : PortsTree) (roots : List Name) : CrawlState :=
  crawlLoop ports (CrawlState.mk roots [] [] [] [])

/-- Python `defaultdict(set)` edge insertion `graph[k].add(v)`: create
the node entry on first access, then add `v` to its set. -/
def gAdd (g : Graph) (k v : Name) : Graph :=
  if g.any (fun p => p.1 == k) then
    g.map (fun p => if p.1 == k then (p.1, setAdd p.2 v) else p)
  else g ++ [(k, [v])]

/-- Explicit `if k not in graph: graph[k] = set()` node insertion. -/
def gEnsure (g : Graph) (k : Name) : Graph :=
  if g.any (fun p => p.1 == k) then g else g ++ [(k, [])]

/-- Dict membership test `k in modules`. -/
def isModuleName (modules : List (Name × ModuleRecord)) (k : Name) : Bool :=
  modules.any (fun m => m.1 == k)

/-- Translation of the graph inversion (vcpkg.py lines 409-422): for
every recorded (dependent, dependency) pair, add the edge
dependency -> dependent when the dependency has a module record,
otherwise only ensure the dependency is a node; finally ensure the
dependent itself is a node.  Note the final ensure runs only for
packages that appear in `package_deps_map`, that is, packages with at
least one recorded dependency. -/
def buildGraphForSort (depsMap : List (Name × List Name))
    (modules : List (Name × ModuleRecord)) : Graph :=
  depsMap.foldl (fun g pd =>
    let g2 := pd.2.foldl (fun g dep =>
      if isModuleName modules dep then gAdd g dep pd.1
      else gEnsure g dep) g
    gEnsure g2 pd.1) []

/-- Translation of the graph restriction (vcpkg.py lines 426-433): keep
only nodes and edge endpoints that have module records. -/
def filterGraph (g : Graph) (modules : List (Name × ModuleRecord)) : Graph :=
  g.foldl (fun fg p =>
    if isModuleName modules p.1 then
      let fg2 := p.2.foldl (fun fg v =>
        if isModuleName modules v then gAdd fg p.1 v else fg) fg
      gEnsure fg2 p.1
    else fg) []

/-- Dict lookup `all_modules_data[n]`. -/
def lookupModule (modules : List (Name × ModuleRecord)) (n : Name) : Option ModuleRecord :=
  (modules.find? (fun p => p.1 == n)).map Prod.snd

/-- End-to-end module-list pipeline of `main` (vcpkg.py lines 382-446):
crawl, build and restrict the dependency graph, topologically sort, and
collect the module records of the sorted names (`none` when the sort
raised).  The sorted names are always module keys, so the `filterMap`
lookup collection drops nothing. -/
def mainModules (ports : PortsTree) (roots : List Name) : Option (List ModuleRecord) :=
  let st := crawl ports roots
  let fg := filterGraph (buildGraphForSort st.depsMap st.modules) st.modules
  match topological_sort fg with
  | SortResult.ok names => some (names.filterMap (lookupModule st.modules))
  | _ => none

/-! Facts about the Python-operation helpers. -/

theorem head?_dropWhile_not (p : Char → Bool) :
    ∀ (l : List Char) (c : Char), (l.dropWhile p).head? = some c → p c = false := by
  intro l
  induction l with
  | nil => intro c h; cases h
  | cons a t ih =>
    intro c h
    by_cases hpa : p a
    · rw [List.dropWhile_cons_of_pos hpa] at h
      exact ih c h
    · rw [List.dropWhile_cons_of_neg hpa] at h
      have : a = c := by simpa using h
      subst this
      simpa using hpa

theorem head?_of_singleton_not_prefixed {c : Char} {l : List Char}
    (h : [c].isPrefixOf l = false) : l.head? ≠ some c := by
  cases l with
  | nil => simp
  | cons a t =>
    intro he
    have hac : a = c := by simpa using he
    subst hac
    simp [List.isPrefixOf] at h

theorem mem_pyDedupAux {x : String} :
    ∀ (l seen : List String), x ∈ pyDedupAux seen l ↔ (x ∈ l ∧ x ∉ seen) := by
  intro l
  induction l with
  | nil => intro seen; simp [pyDedupAux]
  | cons a t ih =>
    intro seen
    by_cases ha : seen.contains a
    · have haseen : a ∈ seen := by simpa [List.contains, List.elem_eq_mem] using ha
      rw [pyDedupAux, if_pos ha, ih]
      constructor
      · rintro ⟨hxt, hxs⟩; exact ⟨List.mem_cons_of_mem _ hxt, hxs⟩
      · rintro ⟨hxc, hxs⟩
        rcases List.mem_cons.mp hxc with hxa | hxt
        · exact absurd (hxa ▸ haseen) hxs
        · exact ⟨hxt, hxs⟩
    · have hanseen : a ∉ seen := by simpa [List.contains, List.elem_eq_mem] using ha
      rw [pyDedupAux, if_neg ha]
      constructor
      · intro hx
        rcases List.mem_cons.mp hx with hxa | hxt
        · exact ⟨hxa ▸ List.mem_cons_self a t, hxa ▸ hanseen⟩
        · rcases (ih (a :: seen)).mp hxt with ⟨hxt2, hxs2⟩
          refine ⟨List.mem_cons_of_mem _ hxt2, fun hc => hxs2 (List.mem_cons_of_mem _ hc)⟩
      · rintro ⟨hxc, hxs⟩
        rcases List.mem_cons.mp hxc with hxa | hxt
        · exact hxa ▸ List.mem_cons_self a _
        · by_cases hxa : x = a
          · exact hxa ▸ List.mem_cons_self a _
          · exact List.mem_cons_of_mem _ ((ih (a :: seen)).mpr
              ⟨hxt, fun hc => (List.mem_cons.mp hc).elim hxa hxs⟩)

theorem pyDedupAux_nodup : ∀ (l seen : List String), (pyDedupAux seen l).Nodup := by
  intro l
  induction l with
  | nil => intro seen; simp [pyDedupAux]
  | cons a t ih =>
    intro seen
    by_cases ha : seen.contains a
    · rw [pyDedupAux, if_pos ha]; exact ih seen
    · rw [pyDedupAux, if_neg ha]
      refine List.nodup_cons.mpr ⟨?_, ih (a :: seen)⟩
      intro hmem
      exact ((mem_pyDedupAux t (a :: seen)).mp hmem).2 (List.mem_cons_self a seen)

theorem mem_pyDedup {x : String} {l : List String} : x ∈ pyDedup l ↔ x ∈ l := by
  unfold pyDedup
  rw [mem_pyDedupAux]
  simp

theorem pyDedup_nodup (l : List String) : (pyDedup l).Nodup := pyDedupAux_nodup l []

theorem leChars_total : ∀ a b : List Char, leChars a b = true ∨ leChars b a = true := by
  intro a
  induction a with
  | nil => intro b; left; simp [leChars]
  | cons x xs ih =>
    intro b
    cases b with
    | nil => right; simp [leChars]
    | cons y ys =>
      rcases lt_trichotomy x y with h | h | h
      · left; simp [leChars, h]
      · subst h
        rcases ih ys with h2 | h2
        · left; simp [leChars, h2]
        · right; simp [leChars, h2]
      · right; simp [leChars, h]

theorem leChars_trans :
    ∀ a b c : List Char, leChars a b = true → leChars b c = true → leChars a c = true := by
  intro a
  induction a with
  | nil => intro b c _ _; simp [leChars]
  | cons x xs ih =>
    intro b c hab hbc
    cases b with
    | nil => simp [leChars] at hab
    | cons y ys =>
      cases c with
      | nil => simp [leChars] at hbc
      | cons z zs =>
        simp only [leChars, Bool.or_eq_true, Bool.and_eq_true, decide_eq_true_eq,
          beq_iff_eq] at hab hbc ⊢
        rcases hab with h1 | ⟨he1, h1⟩
        · rcases hbc with h2 | ⟨he2, h2⟩
          · exact Or.inl (lt_trans h1 h2)
          · exact Or.inl (he2 ▸ h1)
        · rcases hbc with h2 | ⟨he2, h2⟩
          · exact Or.inl (he1 ▸ h2)
          · exact Or.inr ⟨he1.trans he2, ih ys zs h1 h2⟩

theorem pyLeStr_total (a b : String) : pyLeStr a b = true ∨ pyLeStr b a = true :=
  leChars_total a.data b.data

theorem pyLeStr_trans {a b c : String} (h1 : pyLeStr a b = true) (h2 : pyLeStr b c = true) :
    pyLeStr a c = true :=
  leChars_trans a.data b.data c.data h1 h2

theorem insertSorted_perm (x : String) : ∀ l : List String, (insertSorted x l).Perm (x :: l) := by
  intro l
  induction l with
  | nil => simp [insertSorted]
  | cons y ys ih =>
    by_cases h : pyLeStr x y
    · simp [insertSorted, h]
    · rw [insertSorted, if_neg h]
      exact (List.Perm.cons y ih).trans (List.Perm.swap x y ys)

theorem pySortStrings_perm : ∀ l : List String, (pySortStrings l).Perm l := by
  intro l
  induction l with
  | nil => simp [pySortStrings]
  | cons x xs ih =>
    show (insertSorted x (pySortStrings xs)).Perm (x :: xs)
    exact (insertSorted_perm x _).trans (List.Perm.cons x ih)

theorem insertSorted_pairwise (x : String) :
    ∀ l : List String, l.Pairwise (fun a b => pyLeStr a b = true) →
      (insertSorted x l).Pairwise (fun a b => pyLeStr a b = true) := by
  intro l
  induction l with
  | nil => intro _; simp [insertSorted]
  | cons y ys ih =>
    intro hp
    rcases List.pairwise_cons.mp hp with ⟨hy, hys⟩
    by_cases h : pyLeStr x y
    · rw [insertSorted, if_pos h]
      refine List.pairwise_cons.mpr ⟨?_, hp⟩
      intro b hb
      rcases List.mem_cons.mp hb with hbx | hbys
      · exact hbx ▸ h
      · exact pyLeStr_trans h (hy b hbys)
    · rw [insertSorted, if_neg h]
      refine List.pairwise_cons.mpr ⟨?_, ih hys⟩
      intro b hb
      have hb2 := (insertSorted_perm x ys).mem_iff.mp hb
      rcases List.mem_cons.mp hb2 with hbx | hbys
      · rcases pyLeStr_total x y with h2 | h2
        · exact absurd h2 h
        · exact hbx ▸ h2
      · exact hy b hbys

theorem pySortStrings_pairwise :
    ∀ l : List String, (pySortStrings l).Pairwise (fun a b => pyLeStr a b = true) := by
  intro l
  induction l with
  | nil => simp [pySortStrings]
  | cons x xs ih => exact insertSorted_pairwise x (pySortStrings xs) ih

/-! Claim C2: build-option list structure. -/

/-- Claim C2 counterexample: with a surviving descriptor option
`-DA=1`, the final `sorted(...)` of `_parse_cmake_options` places it
before the three baseline options, so the baseline options are not a
prefix of the result and the descriptor options are not kept in
first-occurrence order after them. -/
theorem C2_counterexample :
    parse_cmake_options (some "-DA=1") "1.0"
      = ["-DA=1", "-DCMAKE_BUILD_TYPE=Release", "-DCMAKE_INSTALL_PREFIX=/app/vendor",
         "-DCMAKE_POSITION_INDEPENDENT_CODE=ON"]
    ∧ (parse_cmake_options (some "-DA=1") "1.0").take 3 ≠ essentialOpts := by
  constructor
  · rfl
  · decide

/-- Claim C2 (amended): the extracted build-option list is the
code-point-sorted deduplication of the three baseline options together
with the surviving cleaned descriptor options: it contains exactly those
options, has no duplicates, and is sorted; for an empty descriptor it is
exactly the three baseline options in their fixed order. -/
theorem C2_build_options (block : Option String) (version : String) :
    (∀ o, o ∈ parse_cmake_options block version
        ↔ (o ∈ essentialOpts ∨ o ∈ cleanedOpts block version))
    ∧ (parse_cmake_options block version).Nodup
    ∧ (parse_cmake_options block version).Pairwise (fun a b => pyLeStr a b = true)
    ∧ parse_cmake_options none version = essentialOpts := by
  refine ⟨?_, ?_, ?_, ?_⟩
  · intro o
    unfold parse_cmake_options
    rw [(pySortStrings_perm _).mem_iff, mem_pyDedup, List.mem_append]
  · exact ((pySortStrings_perm _).nodup_iff).mpr (pyDedup_nodup _)
  · exact pySortStrings_pairwise _
  · rfl

/-! Claim C6: git tag derivation. -/

/-- Claim C6 counterexample: `lstrip('vV')` strips every leading
version-prefix character, not exactly one: resolved version `vv1.2.3`
yields tag `1.2.3`, while one-character stripping would yield
`v1.2.3`. -/
theorem C6_counterexample :
    parse_vcpkg_from_github (some (GithubMatch.mk "owner/repo")) [] "vv1.2.3"
      = some ([Source.git "https://github.com/owner/repo.git" "1.2.3"
               (XCheck.gitTag "https://github.com/owner/repo.git")], [])
    ∧ ("1.2.3" : String) ≠ "v1.2.3" := by
  exact ⟨rfl, by decide⟩

/-- Claim C6 (amended): for every github-idiom match the produced tag is
the resolved version with its maximal leading run of `v`/`V` characters
removed (unchanged when there is none): the version splits as a prefix
of `v`/`V` characters followed by the tag, and the tag does not itself
start with `v` or `V`. -/
theorem C6_github_tag (gm : GithubMatch) (patches : List String) (version : String) :
    ∃ tag pre,
      parse_vcpkg_from_github (some gm) patches version
        = some ([Source.git ("https://github.com/" ++ gm.repo ++ ".git") tag
                 (XCheck.gitTag ("https://github.com/" ++ gm.repo ++ ".git"))], patches)
      ∧ version.data = pre ++ tag.data
      ∧ (∀ c ∈ pre, c = 'v' ∨ c = 'V')
      ∧ (∀ c, tag.data.head? = some c → ¬(c = 'v' ∨ c = 'V')) := by
  by_cases h : (pyStartsWith version "v" || pyStartsWith version "V") = true
  · refine ⟨pyLstripVV version, version.data.takeWhile (fun c => c == 'v' || c == 'V'),
      ?_, ?_, ?_, ?_⟩
    · unfold parse_vcpkg_from_github
      rw [if_pos h]
    · exact (List.takeWhile_append_dropWhile _ _).symm
    · intro c hc
      have hp := List.mem_takeWhile_imp hc
      simpa using hp
    · intro c hc
      have hp := head?_dropWhile_not _ _ _ hc
      simpa using hp
  · have h2 : pyStartsWith version "v" = false ∧ pyStartsWith version "V" = false :=
      Bool.or_eq_false_iff.mp (Bool.eq_false_iff.mpr h)
    refine ⟨version, [], ?_, by simp, by simp, ?_⟩
    · unfold parse_vcpkg_from_github
      rw [if_neg (by simp [h2.1, h2.2])]
    · intro c hc hvc
      rcases hvc with hv | hv
      · exact head?_of_singleton_not_prefixed h2.1 (hv ▸ hc)
      · exact head?_of_singleton_not_prefixed h2.2 (hv ▸ hc)

/-! Claim C7: version resolution. -/

/-- Claim C7 counterexample: only a leading lowercase `v` is stripped by
the version resolver; an uppercase `V1.2.3` passes through unchanged,
where the claim requires `1.2.3`. -/
theorem C7_counterexample :
    resolveVersion (some (Except.ok (VcpkgJson.mk (some "V1.2.3") none))) = some "V1.2.3"
    ∧ ("V1.2.3" : String) ≠ "1.2.3" := by
  exact ⟨rfl, by decide⟩

/-- Claim C7 (amended): the resolver yields the sentinel when the
metadata file is absent or parsing raised; it prefers a truthy
exact-version field over the version-string field; it strips exactly one
leading lowercase `v` (and nothing else, in particular no uppercase
`V`); but when the file parses with neither field present it yields the
missing value `None`, not the sentinel. -/
theorem C7_resolve_version :
    (resolveVersion none = some "UNKNOWN_VERSION")
    ∧ (∀ e, resolveVersion (some (Except.error e)) = some "UNKNOWN_VERSION")
    ∧ (∀ (j : VcpkgJson) (v : String), j.version = some v → v.data ≠ [] →
        pyOrStr j.version j.versionString = some v)
    ∧ (∀ (j : VcpkgJson) (v : String) (rest : List Char),
        pyOrStr j.version j.versionString = some v → v.data = 'v' :: rest →
        resolveVersion (some (Except.ok j)) = some (⟨rest⟩ : String))
    ∧ (∀ (j : VcpkgJson) (v : String),
        pyOrStr j.version j.versionString = some v → (∀ rest, v.data ≠ 'v' :: rest) →
        resolveVersion (some (Except.ok j)) = some v)
    ∧ (∀ j : VcpkgJson, pyOrStr j.version j.versionString = none →
        resolveVersion (some (Except.ok j)) = none) := by
  refine ⟨rfl, fun e => rfl, ?_, ?_, ?_, ?_⟩
  · intro j v hj hv
    have he : v.data.isEmpty = false := by
      cases hvd : v.data with
      | nil => exact absurd hvd hv
      | cons a t => rfl
    simp [pyOrStr, hj, he]
  · intro j v rest hor hv
    have he : v.data.isEmpty = false := by rw [hv]; rfl
    have hs : pyStartsWith v "v" = true := by
      unfold pyStartsWith
      rw [hv]
      simp [List.isPrefixOf]
    simp [resolveVersion, hor, he, hs, hv]
  · intro j v hor hv
    cases hd : v.data with
    | nil => simp [resolveVersion, hor, hd]
    | cons c cs =>
      have hcv : c ≠ 'v' := fun he2 => hv cs (by rw [hd, he2])
      have hs : pyStartsWith v "v" = false := by
        unfold pyStartsWith
        rw [hd]
        simp [List.isPrefixOf]
        exact fun he2 => absurd he2.symm hcv
      simp [resolveVersion, hor, hs]
  · intro j hor
    simp [resolveVersion, hor]

/-- Claim C7 witness: the amended statement applied to a concrete
metadata file carrying version `v1.2.3` resolves to `1.2.3`. -/
theorem C7_witness :
    resolveVersion (some (Except.ok (VcpkgJson.mk (some "v1.2.3") none))) = some "1.2.3" :=
  C7_resolve_version.2.2.2.1 (VcpkgJson.mk (some "v1.2.3") none) "v1.2.3" "1.2.3".data
    (by rfl) (by rfl)

/-! Claim C8: patch sources and install steps. -/

/-- Projection selecting the path of a patch-file source. -/
def filePath? : Source → Option String
  | Source.file p => some p
  | _ => none

/-- Paths of the file-typed (patch) sources, in order. -/
def filePathsOf (l : List Source) : List String := l.filterMap filePath?

theorem acquire_no_file_sources (pm : PortMatches) (version : String) :
    filePathsOf (acquireSources pm version).1 = [] := by
  unfold acquireSources
  cases hdm : pm.distfile with
  | some dm =>
    cases hus : dm.urlsStr <;>
      simp [parse_vcpkg_download_distfile, hus, filePathsOf, filePath?]
  | none =>
    cases hg : pm.github <;>
      simp [parse_vcpkg_download_distfile, parse_vcpkg_from_github, filePathsOf, filePath?]

theorem patchCmd_ne_installCmd (p : String) : ("patch -p1 < " ++ p) ≠ installCmd := by
  intro h
  have h2 : some 'p' = some 'c' := congrArg (fun s => s.data.head?) h
  simp at h2

theorem installCmd_not_mem_patchCmds (ps : List String) :
    installCmd ∉ ps.map (fun p => "patch -p1 < " ++ p) := by
  intro hmem
  rcases List.mem_map.mp hmem with ⟨p, _, hp⟩
  exact patchCmd_ne_installCmd p hp

theorem module_installs_eq (name : Name) (pm : PortMatches) (version : String) :
    (moduleOfPortfile name pm version).installCommands
      = (pySortStrings (pyDedup (acquireSources pm version).2)).map
          (fun p => "patch -p1 < " ++ p) ++ [installCmd] := by
  have hnot := installCmd_not_mem_patchCmds
    (pySortStrings (pyDedup (acquireSources pm version).2))
  show (if _ then _ else _) = _
  rw [if_pos]
  simp [List.contains, List.elem_eq_mem, hnot]

/-- Claim C8: in every assembled module record the file-typed patch
sources and the patch-apply install steps are two images of one
duplicate-free patch list `ps`, in the same order, one install step per
patch, and the base install command appears exactly once, at the end. -/
theorem C8_patch_install_pairing (name : Name) (pm : PortMatches) (version : String) :
    ∃ ps : List String, ps.Nodup
      ∧ filePathsOf (moduleOfPortfile name pm version).sources
          = ps.map (fun p => "patches/" ++ p)
      ∧ (moduleOfPortfile name pm version).installCommands
          = ps.map (fun p => "patch -p1 < " ++ p) ++ [installCmd]
      ∧ (moduleOfPortfile name pm version).installCommands.count installCmd = 1 := by
  refine ⟨pySortStrings (pyDedup (acquireSources pm version).2), ?_, ?_, ?_, ?_⟩
  · exact ((pySortStrings_perm _).nodup_iff).mpr (pyDedup_nodup _)
  · show filePathsOf ((acquireSources pm version).1
        ++ (pySortStrings (pyDedup (acquireSources pm version).2)).map
             (fun p => Source.file ("patches/" ++ p))) = _
    rw [filePathsOf, List.filterMap_append]
    rw [show List.filterMap filePath? (acquireSources pm version).1 = []
        from acquire_no_file_sources pm version]
    rw [List.filterMap_map]
    rw [show (filePath? ∘ fun p => Source.file ("patches/" ++ p))
        = some ∘ (fun p : String => "patches/" ++ p) from rfl]
    rw [List.filterMap_eq_map]
    rfl
  · exact module_installs_eq name pm version
  · rw [module_installs_eq name pm version]
    rw [List.count_append]
    rw [List.count_eq_zero.mpr (installCmd_not_mem_patchCmds _)]
    simp

/-! Claim C10: acquisition idiom precedence. -/

/-- Claim C10: when the `vcpkg_download_distfile` search matched but its
optional `URLS` group did not, the acquisition dispatch still takes the
distfile branch: the source list comes back empty (plus patch files
downstream) and the result does not depend on the github match, which is
never consulted. -/
theorem C10_distfile_precedence (pm : PortMatches) (dm : DistfileMatch) (version : String)
    (hdm : pm.distfile = some dm) (hurls : dm.urlsStr = none) :
    acquireSources pm version = ([], pm.distfilePatches)
    ∧ (∀ gh : Option GithubMatch,
        acquireSources
          (PortMatches.mk pm.distfile gh pm.distfilePatches pm.githubPatches pm.optionsBlock)
          version
          = ([], pm.distfilePatches)) := by
  constructor
  · unfold acquireSources
    rw [hdm]
    simp [parse_vcpkg_download_distfile, hurls]
  · intro gh
    unfold acquireSources
    rw [show (PortMatches.mk pm.distfile gh pm.distfilePatches pm.githubPatches
        pm.optionsBlock).distfile = some dm from hdm]
    simp [parse_vcpkg_download_distfile, hurls]

/-- Claim C10 witness: a concrete descriptor whose distfile call lacks a
`URLS` field and which also contains a github call yields an empty
source list via the distfile branch. -/
theorem C10_witness :
    acquireSources (PortMatches.mk (some (DistfileMatch.mk "ARCHIVE" none none false))
      (some (GithubMatch.mk "o/r")) ["a.patch"] [] none) "1.0" = ([], ["a.patch"]) :=
  (C10_distfile_precedence
    (PortMatches.mk (some (DistfileMatch.mk "ARCHIVE" none none false))
      (some (GithubMatch.mk "o/r")) ["a.patch"] [] none)
    (DistfileMatch.mk "ARCHIVE" none none false) "1.0" rfl rfl).1

/-! Claim C9: the in-degree computation and successor closure. -/

theorem foldlM_bump_none (keys : List Name) :
    ∀ vs : List Name, (∃ v ∈ vs, v ∉ keys) →
      ∀ deg, vs.foldlM (bumpDeg keys) deg = none := by
  intro vs
  induction vs with
  | nil => rintro ⟨v, hv, _⟩ _; cases hv
  | cons a t ih =>
    rintro ⟨v, hv, hvk⟩ deg
    rw [List.foldlM_cons]
    by_cases hak : a ∈ keys
    · rw [show bumpDeg keys deg a = some (fun x => if x = a then deg x + 1 else deg x)
          from by rw [bumpDeg, if_pos hak]]
      show t.foldlM (bumpDeg keys) _ = none
      apply ih
      rcases List.mem_cons.mp hv with hva | hvt
      · exact absurd (hva ▸ hak) hvk
      · exact ⟨v, hvt, hvk⟩
    · rw [show bumpDeg keys deg a = none from by rw [bumpDeg, if_neg hak]]
      rfl

theorem foldlM_bump_some (keys : List Name) :
    ∀ vs : List Name, (∀ v ∈ vs, v ∈ keys) →
      ∀ deg : Name → Int, ∃ deg2, vs.foldlM (bumpDeg keys) deg = some deg2
        ∧ ∀ x, deg2 x = deg x + (vs.count x : Int) := by
  intro vs
  induction vs with
  | nil => intro _ deg; exact ⟨deg, rfl, by simp⟩
  | cons a t ih =>
    intro hall deg
    have hak : a ∈ keys := hall a (List.mem_cons_self a t)
    rcases ih (fun v hv => hall v (List.mem_cons_of_mem _ hv))
      (fun x => if x = a then deg x + 1 else deg x) with ⟨deg2, heq, hval⟩
    refine ⟨deg2, ?_, ?_⟩
    · rw [List.foldlM_cons]
      rw [show bumpDeg keys deg a = some (fun x => if x = a then deg x + 1 else deg x)
          from by rw [bumpDeg, if_pos hak]]
      exact heq
    · intro x
      rw [hval x, List.count_cons]
      by_cases hxa : x = a
      · subst hxa; simp; omega
      · simp only [hxa, if_neg]
        have hne : (a == x) = false := by
          simp only [beq_eq_false_iff_ne, ne_eq]
          exact fun he => hxa he.symm
        rw [hne]
        push_cast
        omega

theorem foldlM_outer_none (keys : List Name) :
    ∀ gs : Graph, (∃ p ∈ gs, ∃ v ∈ p.2, v ∉ keys) →
      ∀ deg, gs.foldlM (fun d p => p.2.foldlM (bumpDeg keys) d) deg = none := by
  intro gs
  induction gs with
  | nil => rintro ⟨p, hp, _⟩ _; cases hp
  | cons q rest ih =>
    rintro ⟨p, hp, v, hv, hvk⟩ deg
    rw [List.foldlM_cons]
    by_cases hq : ∃ w ∈ q.2, w ∉ keys
    · rw [foldlM_bump_none keys q.2 hq deg]
      rfl
    · push_neg at hq
      rcases foldlM_bump_some keys q.2 hq deg with ⟨deg2, heq, _⟩
      rw [heq]
      show rest.foldlM (fun d p => p.2.foldlM (bumpDeg keys) d) deg2 = none
      apply ih
      rcases List.mem_cons.mp hp with hpq | hprest
      · exact absurd (hq v (hpq ▸ hv)) hvk
      · exact ⟨p, hprest, v, hv, hvk⟩

theorem foldlM_outer_some (keys : List Name) :
    ∀ gs : Graph, (∀ p ∈ gs, ∀ v ∈ p.2, v ∈ keys) →
      ∀ deg : Name → Int, ∃ deg2,
        gs.foldlM (fun d p => p.2.foldlM (bumpDeg keys) d) deg = some deg2
        ∧ ∀ x, deg2 x = deg x + ((gs.map (fun p => p.2.count x)).sum : Int) := by
  intro gs
  induction gs with
  | nil => intro _ deg; exact ⟨deg, rfl, by simp⟩
  | cons q rest ih =>
    intro hall deg
    rcases foldlM_bump_some keys q.2 (hall q (List.mem_cons_self q rest)) deg
      with ⟨deg1, heq1, hval1⟩
    rcases ih (fun p hp => hall p (List.mem_cons_of_mem _ hp)) deg1 with ⟨deg2, heq2, hval2⟩
    refine ⟨deg2, ?_, ?_⟩
    · rw [List.foldlM_cons, heq1]
      exact heq2
    · intro x
      rw [hval2 x, hval1 x, List.map_cons, List.sum_cons]
      push_cast
      omega

/-- Per-node in-degree of the graph as a plain count over all successor
lists. -/
def degPure (g : Graph) (x : Name) : Nat := (g.map (fun p => p.2.count x)).sum

theorem computeInDegree_closed (g : Graph) (hcl : ClosedGraph g) :
    ∃ deg, computeInDegree g = some deg ∧ ∀ x, deg x = (degPure g x : Int) := by
  rcases foldlM_outer_some (keysOf g) g hcl (fun _ => 0) with ⟨deg, heq, hval⟩
  refine ⟨deg, heq, fun x => ?_⟩
  rw [hval x]
  simp only [degPure, Nat.cast_list_sum, List.map_map, Function.comp, zero_add]
  rfl

theorem computeInDegree_none_of_bad (g : Graph)
    (hbad : ∃ p ∈ g, ∃ v ∈ p.2, v ∉ keysOf g) : computeInDegree g = none :=
  foldlM_outer_none (keysOf g) g hbad _

/-- Claim C9: totality of the sort requires successor closure.  When some
successor is not a key of the mapping, the in-degree computation raises
`KeyError` (before any ordering or cycle report can be produced); when
the graph is successor-closed, that error branch is unreachable. -/
theorem C9_successor_closure (g : Graph) :
    ((∃ p ∈ g, ∃ v ∈ p.2, v ∉ keysOf g) → topological_sort g = SortResult.keyError)
    ∧ (ClosedGraph g → topological_sort g ≠ SortResult.keyError) := by
  constructor
  · intro hbad
    unfold topological_sort
    rw [computeInDegree_none_of_bad g hbad]
  · intro hcl
    rcases computeInDegree_closed g hcl with ⟨deg, heq, _⟩
    unfold topological_sort
    rw [heq]
    intro hc
    dsimp only at hc
    split at hc
    · cases hc
    · split at hc <;> cases hc

/-- Claim C9 witness: a dangling successor name `zz` yields the
`KeyError` outcome, while a successor-closed (even cyclic) graph never
does. -/
theorem C9_witness :
    topological_sort [("a", ["zz"])] = SortResult.keyError
    ∧ topological_sort [("a", ["a"])] ≠ SortResult.keyError :=
  ⟨(C9_successor_closure [("a", ["zz"])]).1 (by decide),
   (C9_successor_closure [("a", ["a"])]).2 (by unfold ClosedGraph; decide)⟩

/-! Kahn-loop invariant development (claims C3 and C4). -/

/-- Number of edge occurrences into `v` whose source key is not yet in
`sorted`. -/
def inCountFrom (g : Graph) (sorted : List Name) (v : Name) : Nat :=
  ((g.filter (fun p => !sorted.contains p.1)).map (fun p => p.2.count v)).sum

theorem inCountFrom_nil (g : Graph) (v : Name) : inCountFrom g [] v = degPure g v := by
  unfold inCountFrom degPure
  rw [List.filter_eq_self.mpr]
  intro p _
  rfl

theorem find?_eq_some_of_nodup {g : Graph} (hnd : (keysOf g).Nodup) {p : Name × List Name}
    (hp : p ∈ g) : g.find? (fun q => q.1 == p.1) = some p := by
  induction g with
  | nil => cases hp
  | cons q rest ih =>
    rcases List.mem_cons.mp hp with hpq | hpr
    · subst hpq
      simp [List.find?_cons]
    · have hq1 : q.1 ≠ p.1 := by
        intro he
        have : q.1 ∈ keysOf rest := he ▸ List.mem_map_of_mem Prod.fst hpr
        exact (List.nodup_cons.mp hnd).1 this
      have hbeq : (q.1 == p.1) = false := by simpa using hq1
      rw [List.find?_cons, hbeq]
      exact ih (List.nodup_cons.mp hnd).2 hpr

theorem succsOf_eq_of_mem {g : Graph} (hnd : (keysOf g).Nodup) {p : Name × List Name}
    (hp : p ∈ g) : succsOf g p.1 = p.2 := by
  unfold succsOf lookupSuccs
  rw [find?_eq_some_of_nodup hnd hp]
  rfl

theorem succsOf_entry {g : Graph} (hnd : (keysOf g).Nodup) {u : Name} (hu : u ∈ keysOf g) :
    (u, succsOf g u) ∈ g := by
  rcases List.mem_map.mp hu with ⟨p, hp, hfst⟩
  have hs : succsOf g u = p.2 := by
    rw [← hfst]
    exact succsOf_eq_of_mem hnd hp
  rw [hs, ← hfst]
  exact hp

theorem edge_iff_count (g : Graph) (w v : Name) :
    EdgeOf g w v ↔ w ∈ keysOf g ∧ 0 < (succsOf g w).count v := by
  unfold EdgeOf
  constructor
  · rintro ⟨h1, h2⟩
    exact ⟨h1, List.count_pos_iff.mpr h2⟩
  · rintro ⟨h1, h2⟩
    exact ⟨h1, List.count_pos_iff.mp h2⟩

theorem edge_target_key {g : Graph} (hcl : ClosedGraph g) {a b : Name}
    (he : EdgeOf g a b) : b ∈ keysOf g := by
  rcases he with ⟨ha, hb⟩
  unfold succsOf lookupSuccs at hb
  cases hfind : g.find? (fun q => q.1 == a) with
  | none => rw [hfind] at hb; cases hb
  | some p =>
    rw [hfind] at hb
    exact hcl p (List.mem_of_find?_eq_some hfind) b hb

theorem no_unsorted_pred {g : Graph} (hnd : (keysOf g).Nodup) {S : List Name} {v : Name}
    (h : inCountFrom g S v = 0) : ∀ w, EdgeOf g w v → w ∈ S := by
  intro w hedge
  by_contra hwS
  rcases (edge_iff_count g w v).mp hedge with ⟨hwk, hcount⟩
  have hent := succsOf_entry hnd hwk
  have hmem : (w, succsOf g w) ∈ g.filter (fun p => !S.contains p.1) := by
    rw [List.mem_filter]
    refine ⟨hent, ?_⟩
    simp [List.contains, List.elem_eq_mem, hwS]
  have hle : (succsOf g w).count v ≤ inCountFrom g S v := by
    unfold inCountFrom
    exact List.le_sum_of_mem (List.mem_map_of_mem (fun p => p.2.count v) hmem)
  omega

theorem inCountFrom_step (g : Graph) (hnd : (keysOf g).Nodup) (S : List Name) (u : Name)
    (hu : u ∈ keysOf g) (huS : u ∉ S) (v : Name) :
    inCountFrom g S v = (succsOf g u).count v + inCountFrom g (S ++ [u]) v := by
  have hent := succsOf_entry hnd hu
  -- split off the unique u entry from the S filter
  induction g with
  | nil => cases hent
  | cons q rest ih =>
    have hndr : (keysOf rest).Nodup := (List.nodup_cons.mp hnd).2
    by_cases hq : q.1 = u
    · -- the head is the u entry; the tail has no u entry
      have hqe : q.2 = succsOf (q :: rest) u := by
        have h2 := succsOf_eq_of_mem hnd (List.mem_cons_self q rest)
        rw [hq] at h2
        exact h2.symm
      have hnou : ∀ p ∈ rest, p.1 ≠ u := by
        intro p hp he
        exact (List.nodup_cons.mp hnd).1 (hq ▸ he ▸ List.mem_map_of_mem Prod.fst hp)
      have hfilters : rest.filter (fun p => !(S ++ [u]).contains p.1)
          = rest.filter (fun p => !S.contains p.1) := by
        apply List.filter_congr
        intro p hp
        have hne := hnou p hp
        simp [List.contains, List.elem_eq_mem, hne]
      unfold inCountFrom
      have hc1 : (!S.contains q.1) = true := by
        simp [List.contains, List.elem_eq_mem, hq, huS]
      have hc2 : ¬ ((!(S ++ [u]).contains q.1) = true) := by
        simp [List.contains, List.elem_eq_mem, hq]
      rw [List.filter_cons, List.filter_cons, if_pos hc1, if_neg hc2, hfilters]
      simp only [List.map_cons, List.sum_cons]
      have hq2 : q.2.count v = (succsOf (q :: rest) u).count v := by rw [hqe]
      omega
    · -- the u entry is in the tail
      have hur : u ∈ keysOf rest := by
        rcases List.mem_map.mp hu with ⟨p, hp, hfst⟩
        rcases List.mem_cons.mp hp with hpq | hpr
        · exact absurd (hpq ▸ hfst) hq
        · exact hfst ▸ List.mem_map_of_mem Prod.fst hpr
      have hsucc : succsOf (q :: rest) u = succsOf rest u := by
        unfold succsOf lookupSuccs
        have hbeq : (q.1 == u) = false := by simpa using hq
        rw [List.find?_cons, hbeq]
      have hentr := succsOf_entry hndr hur
      have ihh := ih hndr hur hentr
      unfold inCountFrom at ihh ⊢
      have hcq : (!(S ++ [u]).contains q.1) = (!S.contains q.1) := by
        simp [List.contains, List.elem_eq_mem, hq]
      rw [List.filter_cons, List.filter_cons, hcq]
      by_cases hsq : (!S.contains q.1) = true
      · rw [if_pos hsq, if_pos hsq]
        simp only [List.map_cons, List.sum_cons]
        rw [hsucc]
        omega
      · rw [if_neg hsq, if_neg hsq]
        rw [hsucc]
        omega

/-- Loop invariant of the Kahn iteration, holding between pops: the
in-degree function counts edges from unsorted keys, sorted and queued
names are distinct keys, a key is sorted-or-queued exactly when its
in-degree is zero, all predecessors of sorted-or-queued nodes are
already sorted (and none is a self-loop), and the sorted list never
places a successor before its predecessor. -/
structure KahnInv (g : Graph) (deg : Name → Int) (queue sorted : List Name) : Prop where
  hdeg : ∀ v, deg v = (inCountFrom g sorted v : Int)
  hnodup : (sorted ++ queue).Nodup
  hkeys : ∀ x ∈ sorted ++ queue, x ∈ keysOf g
  hzero : ∀ v ∈ keysOf g, ((v ∈ sorted ∨ v ∈ queue) ↔ deg v = 0)
  hpred : ∀ v, (v ∈ sorted ∨ v ∈ queue) → ∀ w, EdgeOf g w v → w ∈ sorted
  hself : ∀ v, (v ∈ sorted ∨ v ∈ queue) → ¬ EdgeOf g v v
  hpair : sorted.Pairwise (fun a b => ¬ EdgeOf g b a)

/-- Intermediate invariant while the successors of the popped node `u`
are processed: `done` are the already-decremented successor occurrences
and `vs` the remaining ones. -/
structure MidInv (g : Graph) (S : List Name) (u : Name) (done vs : List Name)
    (deg : Name → Int) (queue : List Name) : Prop where
  hsplit : succsOf g u = done ++ vs
  hdeg : ∀ v, deg v = (inCountFrom g S v : Int) - (done.count v : Int)
  hnodup : ((S ++ [u]) ++ queue).Nodup
  hkeys : ∀ x ∈ (S ++ [u]) ++ queue, x ∈ keysOf g
  hzero : ∀ v ∈ keysOf g, ((v ∈ S ∨ v = u ∨ v ∈ queue) ↔ deg v = 0)
  hpred : ∀ v, (v ∈ S ∨ v = u ∨ v ∈ queue) → ∀ w, EdgeOf g w v → w ∈ S ++ [u]
  hself : ∀ v, (v ∈ S ∨ v = u ∨ v ∈ queue) → ¬ EdgeOf g v v
  hpair : (S ++ [u]).Pairwise (fun a b => ¬ EdgeOf g b a)
  hrest : ∀ x, (x ∈ S ∨ x = u ∨ x ∈ queue) → x ∉ vs

theorem midInv_entry {g : Graph} (hnd : (keysOf g).Nodup)
    {deg : Name → Int} {u : Name} {rest sorted : List Name}
    (hinv : KahnInv g deg (u :: rest) sorted) :
    MidInv g sorted u [] (succsOf g u) deg rest := by
  obtain ⟨hdeg, hnodup, hkeys, hzero, hpred, hself, hpair⟩ := hinv
  have hassoc : sorted ++ u :: rest = (sorted ++ [u]) ++ rest := by simp
  have hu_k : u ∈ keysOf g :=
    hkeys u (List.mem_append_right _ (List.mem_cons_self u rest))
  have hu_nS : u ∉ sorted := by
    intro hus
    rcases List.nodup_append.mp hnodup with ⟨_, _, hdisj⟩
    exact hdisj hus (List.mem_cons_self u rest)
  refine ⟨rfl, ?_, ?_, ?_, ?_, ?_, ?_, ?_, ?_⟩
  · intro v; rw [hdeg v]; simp
  · rw [← hassoc]; exact hnodup
  · intro x hx; exact hkeys x (hassoc ▸ hx)
  · intro v hv
    rw [← hzero v hv]
    constructor
    · rintro (h | h | h)
      · exact Or.inl h
      · exact Or.inr (h ▸ List.mem_cons_self u rest)
      · exact Or.inr (List.mem_cons_of_mem _ h)
    · rintro (h | h)
      · exact Or.inl h
      · rcases List.mem_cons.mp h with h2 | h2
        · exact Or.inr (Or.inl h2)
        · exact Or.inr (Or.inr h2)
  · intro v hv w hedge
    have hv2 : v ∈ sorted ∨ v ∈ u :: rest := by
      rcases hv with h | h | h
      · exact Or.inl h
      · exact Or.inr (h ▸ List.mem_cons_self u rest)
      · exact Or.inr (List.mem_cons_of_mem _ h)
    exact List.mem_append_left _ (hpred v hv2 w hedge)
  · intro v hv
    have hv2 : v ∈ sorted ∨ v ∈ u :: rest := by
      rcases hv with h | h | h
      · exact Or.inl h
      · exact Or.inr (h ▸ List.mem_cons_self u rest)
      · exact Or.inr (List.mem_cons_of_mem _ h)
    exact hself v hv2
  · rw [List.pairwise_append]
    refine ⟨hpair, List.pairwise_singleton _ _, ?_⟩
    intro a ha b hb
    have hbu : b = u := List.mem_singleton.mp hb
    subst hbu
    intro hedge
    exact hu_nS (hpred a (Or.inl ha) b hedge)
  · intro x hx hmem
    have hx_k : x ∈ keysOf g := by
      apply hkeys
      rw [hassoc]
      rcases hx with h | h | h
      · exact List.mem_append_left _ (List.mem_append_left _ h)
      · exact List.mem_append_left _ (List.mem_append_right _ (h ▸ List.mem_singleton_self u))
      · exact List.mem_append_right _ h
    have hx2 : x ∈ sorted ∨ x ∈ u :: rest := by
      rcases hx with h | h | h
      · exact Or.inl h
      · exact Or.inr (h ▸ List.mem_cons_self u rest)
      · exact Or.inr (List.mem_cons_of_mem _ h)
    have h0 : deg x = 0 := (hzero x hx_k).mp hx2
    have hic : inCountFrom g sorted x = 0 := by
      have := hdeg x
      omega
    have := no_unsorted_pred hnd hic u ⟨hu_k, hmem⟩
    exact hu_nS this

theorem midInv_step {g : Graph} (hnd : (keysOf g).Nodup) (hcl : ClosedGraph g)
    {S : List Name} {u : Name} {done vs queue : List Name} {deg : Name → Int} {v : Name}
    (hmid : MidInv g S u done (v :: vs) deg queue) :
    MidInv g S u (done ++ [v]) vs (decDeg deg v)
      (if decDeg deg v v = 0 then queue ++ [v] else queue) := by
  obtain ⟨hsplit, hdeg, hnodup, hkeys, hzero, hpred, hself, hpair, hrest⟩ := hmid
  have hv_succ : v ∈ succsOf g u := by
    rw [hsplit]
    exact List.mem_append_right _ (List.mem_cons_self v vs)
  have hu_k : u ∈ keysOf g := by
    apply hkeys
    exact List.mem_append_left _ (List.mem_append_right _ (List.mem_singleton_self u))
  have hu_nS : u ∉ S := by
    rcases List.nodup_append.mp hnodup with ⟨hSu, _, _⟩
    rcases List.nodup_append.mp hSu with ⟨_, _, hdisj⟩
    exact fun hus => hdisj hus (List.mem_singleton_self u)
  have hv_k : v ∈ keysOf g :=
    hcl (u, succsOf g u) (succsOf_entry hnd hu_k) v hv_succ
  have hv_not : ¬ (v ∈ S ∨ v = u ∨ v ∈ queue) := by
    intro hc
    exact (hrest v hc) (List.mem_cons_self v vs)
  have hdd : decDeg deg v v = deg v - 1 := by simp [decDeg]
  have hddx : ∀ x, x ≠ v → decDeg deg v x = deg x := by
    intro x hx; simp [decDeg, hx]
  have hcount_succ : (succsOf g u).count v = done.count v + 1 + vs.count v := by
    rw [hsplit, List.count_append, List.count_cons_self]
    omega
  have hstepv := inCountFrom_step g hnd S u hu_k hu_nS v
  have hdeg_v := hdeg v
  -- new split is valid in both cases
  have hsplit2 : succsOf g u = (done ++ [v]) ++ vs := by
    rw [hsplit]; simp
  by_cases h0 : decDeg deg v v = 0
  · -- push case: deg v = 1, so v had exactly one remaining incoming edge
    have hdv1 : deg v = 1 := by omega
    have hkey : inCountFrom g S v = done.count v + 1 := by omega
    have hzero2 : vs.count v = 0 ∧ inCountFrom g (S ++ [u]) v = 0 := by
      constructor <;> omega
    have hv_vs : v ∉ vs := by
      have := hzero2.1
      intro hc
      have := List.count_pos_iff.mpr hc
      omega
    have hpredv : ∀ w, EdgeOf g w v → w ∈ S ++ [u] :=
      no_unsorted_pred hnd hzero2.2
    have hselfv : ¬ EdgeOf g v v := by
      intro hc
      rcases List.mem_append.mp (hpredv v hc) with h | h
      · exact hv_not (Or.inl h)
      · exact hv_not (Or.inr (Or.inl (List.mem_singleton.mp h)))
    rw [if_pos h0]
    refine ⟨hsplit2, ?_, ?_, ?_, ?_, ?_, ?_, hpair, ?_⟩
    · intro x
      rw [List.count_append]
      by_cases hx : x = v
      · subst hx
        have h1 : List.count x [x] = 1 := by simp
        have h2 := hdeg x
        omega
      · have h1 : List.count x [v] = 0 := List.count_eq_zero.mpr (by simpa using hx)
        have h2 := hdeg x
        have h3 := hddx x hx
        omega
    · have heq : (S ++ [u]) ++ (queue ++ [v]) = ((S ++ [u]) ++ queue) ++ [v] := by simp
      rw [heq, List.nodup_append]
      refine ⟨hnodup, List.nodup_singleton v, ?_⟩
      intro x hx hxv
      have hxv2 : x = v := List.mem_singleton.mp hxv
      subst hxv2
      rcases List.mem_append.mp hx with h | h
      · rcases List.mem_append.mp h with h2 | h2
        · exact hv_not (Or.inl h2)
        · exact hv_not (Or.inr (Or.inl (List.mem_singleton.mp h2)))
      · exact hv_not (Or.inr (Or.inr h))
    · intro x hx
      rcases List.mem_append.mp hx with h | h
      · exact hkeys x (List.mem_append_left _ h)
      · rcases List.mem_append.mp h with h2 | h2
        · exact hkeys x (List.mem_append_right _ h2)
        · exact (List.mem_singleton.mp h2) ▸ hv_k
    · intro x hx_k
      by_cases hx : x = v
      · subst hx
        constructor
        · intro _; exact h0
        · intro _
          exact Or.inr (Or.inr (List.mem_append_right _ (List.mem_singleton_self x)))
      · rw [hddx x hx]
        rw [← hzero x hx_k]
        constructor
        · rintro (h | h | h)
          · exact Or.inl h
          · exact Or.inr (Or.inl h)
          · rcases List.mem_append.mp h with h2 | h2
            · exact Or.inr (Or.inr h2)
            · exact absurd (List.mem_singleton.mp h2) hx
        · rintro (h | h | h)
          · exact Or.inl h
          · exact Or.inr (Or.inl h)
          · exact Or.inr (Or.inr (List.mem_append_left _ h))
    · intro x hx w hedge
      by_cases hxv : x = v
      · exact hpredv w (hxv ▸ hedge)
      · apply hpred x ?_ w hedge
        rcases hx with h | h | h
        · exact Or.inl h
        · exact Or.inr (Or.inl h)
        · rcases List.mem_append.mp h with h2 | h2
          · exact Or.inr (Or.inr h2)
          · exact absurd (List.mem_singleton.mp h2) hxv
    · intro x hx
      by_cases hxv : x = v
      · exact hxv ▸ hselfv
      · apply hself x
        rcases hx with h | h | h
        · exact Or.inl h
        · exact Or.inr (Or.inl h)
        · rcases List.mem_append.mp h with h2 | h2
          · exact Or.inr (Or.inr h2)
          · exact absurd (List.mem_singleton.mp h2) hxv
    · intro x hx
      by_cases hxv : x = v
      · exact hxv ▸ hv_vs
      · intro hc
        apply hrest x ?_ (List.mem_cons_of_mem _ hc)
        rcases hx with h | h | h
        · exact Or.inl h
        · exact Or.inr (Or.inl h)
        · rcases List.mem_append.mp h with h2 | h2
          · exact Or.inr (Or.inr h2)
          · exact absurd (List.mem_singleton.mp h2) hxv
  · -- no-push case: the decrement leaves the in-degree away from zero
    rw [if_neg h0]
    refine ⟨hsplit2, ?_, hnodup, hkeys, ?_, ?_, ?_, hpair, ?_⟩
    · intro x
      rw [List.count_append]
      by_cases hx : x = v
      · subst hx
        have h1 : List.count x [x] = 1 := by simp
        have h2 := hdeg x
        omega
      · have h1 : List.count x [v] = 0 := List.count_eq_zero.mpr (by simpa using hx)
        have h2 := hdeg x
        have h3 := hddx x hx
        omega
    · intro x hx_k
      by_cases hx : x = v
      · subst hx
        constructor
        · intro hc; exact absurd hc hv_not
        · intro hc; exact absurd hc h0
      · rw [hddx x hx]
        exact hzero x hx_k
    · exact hpred
    · exact hself
    · intro x hx
      intro hc
      exact hrest x hx (List.mem_cons_of_mem _ hc)

theorem processSuccs_midinv {g : Graph} (hnd : (keysOf g).Nodup) (hcl : ClosedGraph g)
    {S : List Name} {u : Name} :
    ∀ (vs done : List Name) (deg : Name → Int) (queue : List Name),
      MidInv g S u done vs deg queue →
      MidInv g S u (done ++ vs) []
        (processSuccs deg queue vs).1 (processSuccs deg queue vs).2 := by
  intro vs
  induction vs with
  | nil =>
    intro done deg queue h
    simpa [processSuccs] using h
  | cons v vs ih =>
    intro done deg queue h
    rw [show processSuccs deg queue (v :: vs)
        = processSuccs (decDeg deg v)
            (if decDeg deg v v = 0 then queue ++ [v] else queue) vs from rfl]
    have h2 := midInv_step hnd hcl h
    have h3 := ih (done ++ [v]) _ _ h2
    have heq : (done ++ [v]) ++ vs = done ++ v :: vs := by simp
    rw [heq] at h3
    exact h3

theorem midInv_exit {g : Graph} (hnd : (keysOf g).Nodup)
    {S : List Name} {u : Name} {done : List Name} {deg : Name → Int} {queue : List Name}
    (hmid : MidInv g S u done [] deg queue) :
    KahnInv g deg queue (S ++ [u]) := by
  obtain ⟨hsplit, hdeg, hnodup, hkeys, hzero, hpred, hself, hpair, _⟩ := hmid
  have hdone : done = succsOf g u := by simpa using hsplit.symm
  subst hdone
  have hu_k : u ∈ keysOf g := by
    apply hkeys
    exact List.mem_append_left _ (List.mem_append_right _ (List.mem_singleton_self u))
  have hu_nS : u ∉ S := by
    rcases List.nodup_append.mp hnodup with ⟨hSu, _, _⟩
    rcases List.nodup_append.mp hSu with ⟨_, _, hdisj⟩
    exact fun hus => hdisj hus (List.mem_singleton_self u)
  have hmemiff : ∀ x : Name, x ∈ S ++ [u] ↔ (x ∈ S ∨ x = u) := by
    intro x
    rw [List.mem_append, List.mem_singleton]
  refine ⟨?_, hnodup, hkeys, ?_, ?_, ?_, hpair⟩
  · intro v
    have h1 := hdeg v
    have h2 := inCountFrom_step g hnd S u hu_k hu_nS v
    omega
  · intro v hv
    rw [← hzero v hv]
    rw [hmemiff v]
    tauto
  · intro v hv w hedge
    apply hpred v ?_ w hedge
    rcases hv with h | h
    · rcases (hmemiff v).mp h with h2 | h2
      · exact Or.inl h2
      · exact Or.inr (Or.inl h2)
    · exact Or.inr (Or.inr h)
  · intro v hv
    apply hself v
    rcases hv with h | h
    · rcases (hmemiff v).mp h with h2 | h2
      · exact Or.inl h2
      · exact Or.inr (Or.inl h2)
    · exact Or.inr (Or.inr h)

/-- What holds of the final sorted list produced by the Kahn loop. -/
structure KahnPost (g : Graph) (out : List Name) : Prop where
  hnodup : out.Nodup
  hkeys : ∀ x ∈ out, x ∈ keysOf g
  hpred : ∀ v ∈ out, ∀ w, EdgeOf g w v → w ∈ out
  hpair : out.Pairwise (fun a b => ¬ EdgeOf g b a)
  hself : ∀ v ∈ out, ¬ EdgeOf g v v
  hstuck : ∀ v ∈ keysOf g, v ∉ out → ∃ w, EdgeOf g w v ∧ w ∉ out

theorem kahnInv_final {g : Graph} (hnd : (keysOf g).Nodup) {deg : Name → Int}
    {sorted : List Name} (hinv : KahnInv g deg [] sorted) : KahnPost g sorted := by
  obtain ⟨hdeg, hnodup, hkeys, hzero, hpred, hself, hpair⟩ := hinv
  refine ⟨by simpa using hnodup, ?_, ?_, hpair, ?_, ?_⟩
  · intro x hx
    exact hkeys x (List.mem_append_left _ hx)
  · intro v hv w hedge
    exact hpred v (Or.inl hv) w hedge
  · intro v hv
    exact hself v (Or.inl hv)
  · intro v hv hvs
    have hne : deg v ≠ 0 := by
      intro h0
      rcases (hzero v hv).mpr h0 with h | h
      · exact hvs h
      · cases h
    have hpos : 0 < inCountFrom g sorted v := by
      have := hdeg v
      omega
    have hsum : ((g.filter (fun p => !sorted.contains p.1)).map (fun p => p.2.count v)).sum ≠ 0 := by
      unfold inCountFrom at hpos
      omega
    have hex : ∃ p ∈ g.filter (fun p => !sorted.contains p.1), p.2.count v ≠ 0 := by
      by_contra hall
      push_neg at hall
      apply hsum
      apply List.sum_eq_zero
      intro x hx
      rcases List.mem_map.mp hx with ⟨p, hp, hpx⟩
      rw [← hpx]
      exact hall p hp
    rcases hex with ⟨p, hpf, hpc⟩
    rcases List.mem_filter.mp hpf with ⟨hpg, hpns⟩
    refine ⟨p.1, ⟨List.mem_map_of_mem Prod.fst hpg, ?_⟩, ?_⟩
    · rw [succsOf_eq_of_mem hnd hpg]
      exact List.count_pos_iff.mp (by omega)
    · intro hc
      simp [List.contains, List.elem_eq_mem, hc] at hpns

theorem kahnLoop_post {g : Graph} (hnd : (keysOf g).Nodup) (hcl : ClosedGraph g) :
    ∀ (n : Nat) (deg : Name → Int) (queue sorted : List Name),
      queue.length + degWeight g deg ≤ n →
      KahnInv g deg queue sorted → KahnPost g (kahnLoop g deg queue sorted) := by
  intro n
  induction n with
  | zero =>
    intro deg queue sorted hm hinv
    have hq : queue = [] := by
      cases queue with
      | nil => rfl
      | cons a t => simp at hm
    subst hq
    rw [show kahnLoop g deg [] sorted = sorted from by rw [kahnLoop]]
    exact kahnInv_final hnd hinv
  | succ n ih =>
    intro deg queue sorted hm hinv
    cases queue with
    | nil =>
      rw [show kahnLoop g deg [] sorted = sorted from by rw [kahnLoop]]
      exact kahnInv_final hnd hinv
    | cons u rest =>
      rw [show kahnLoop g deg (u :: rest) sorted
          = kahnLoop g (processSuccs deg rest (succsOf g u)).1
              (processSuccs deg rest (succsOf g u)).2 (sorted ++ [u]) from by rw [kahnLoop]]
      have hmid0 := midInv_entry hnd hinv
      have hmid := processSuccs_midinv hnd hcl (succsOf g u) [] deg rest hmid0
      have hmid2 : MidInv g sorted u (succsOf g u) []
          (processSuccs deg rest (succsOf g u)).1
          (processSuccs deg rest (succsOf g u)).2 := by
        simpa using hmid
      have hinv2 := midInv_exit hnd hmid2
      apply ih _ _ _ ?_ hinv2
      have hms := processSuccs_measure g (succsOf g u) deg rest (succsOf_mem_allSuccs g u)
      simp only [List.length_cons] at hm
      omega

theorem kahnInv_initial {g : Graph} (hnd : (keysOf g).Nodup) {deg : Name → Int}
    (hdeg : ∀ x, deg x = (degPure g x : Int)) :
    KahnInv g deg ((keysOf g).filter (fun u => deg u == 0)) [] := by
  have hzero_pred : ∀ v, deg v = 0 → ∀ w, EdgeOf g w v → False := by
    intro v h0 w hedge
    have hdp : degPure g v = 0 := by
      have := hdeg v
      omega
    have hic : inCountFrom g [] v = 0 := by rw [inCountFrom_nil]; exact hdp
    have := no_unsorted_pred hnd hic w hedge
    cases this
  refine ⟨?_, ?_, ?_, ?_, ?_, ?_, List.Pairwise.nil⟩
  · intro v
    rw [hdeg v, inCountFrom_nil]
  · simpa using (hnd.filter _)
  · intro x hx
    simp only [List.nil_append] at hx
    exact (List.mem_filter.mp hx).1
  · intro v hv
    constructor
    · rintro (h | h)
      · cases h
      · simpa using (List.mem_filter.mp h).2
    · intro h0
      right
      exact List.mem_filter.mpr ⟨hv, by simpa using h0⟩
  · intro v hv w hedge
    exfalso
    rcases hv with h | h
    · cases h
    · exact hzero_pred v (by simpa using (List.mem_filter.mp h).2) w hedge
  · intro v hv hedge
    rcases hv with h | h
    · cases h
    · exact hzero_pred v (by simpa using (List.mem_filter.mp h).2) v hedge

theorem topological_sort_spec {g : Graph} (hnd : (keysOf g).Nodup) (hcl : ClosedGraph g) :
    ∃ out, KahnPost g out
      ∧ topological_sort g
          = (if out.length = g.length then SortResult.ok out
             else
               if ((keysOf g).filter (fun u => !out.contains u)).isEmpty then
                 SortResult.unknownFailure
               else SortResult.cycle ((keysOf g).filter (fun u => !out.contains u))) := by
  rcases computeInDegree_closed g hcl with ⟨deg, heq, hval⟩
  refine ⟨kahnLoop g deg ((keysOf g).filter (fun u => deg u == 0)) [], ?_, ?_⟩
  · exact kahnLoop_post hnd hcl _ deg _ [] le_rfl (kahnInv_initial hnd hval)
  · unfold topological_sort
    rw [heq]

theorem unsorted_reaches_cycle {g : Graph} {out : List Name} (hpost : KahnPost g out) :
    ∀ v, v ∈ keysOf g → v ∉ out →
      ∃ c, Relation.TransGen (EdgeOf g) c c ∧ Relation.ReflTransGen (EdgeOf g) c v := by
  classical
  intro v hvk hvo
  have hstep : ∀ x, (x ∈ keysOf g ∧ x ∉ out) → ∃ w, EdgeOf g w x ∧ w ∉ out :=
    fun x hx => hpost.hstuck x hx.1 hx.2
  let f : Name → Name := fun x =>
    if h : x ∈ keysOf g ∧ x ∉ out then Classical.choose (hstep x h) else x
  have hf : ∀ x (h : x ∈ keysOf g ∧ x ∉ out),
      EdgeOf g (f x) x ∧ (f x ∈ keysOf g ∧ f x ∉ out) := by
    intro x h
    have hfx : f x = Classical.choose (hstep x h) := dif_pos h
    have hs := Classical.choose_spec (hstep x h)
    rw [hfx]
    exact ⟨hs.1, hs.1.1, hs.2⟩
  have hUn : ∀ n : Nat, f^[n] v ∈ keysOf g ∧ f^[n] v ∉ out := by
    intro n
    induction n with
    | zero => exact ⟨hvk, hvo⟩
    | succ n ih =>
      rw [Function.iterate_succ_apply']
      exact (hf _ ih).2
  have hEn : ∀ n : Nat, EdgeOf g (f^[n+1] v) (f^[n] v) := by
    intro n
    rw [Function.iterate_succ_apply']
    exact (hf _ (hUn n)).1
  have hRT : ∀ n : Nat, Relation.ReflTransGen (EdgeOf g) (f^[n] v) v := by
    intro n
    induction n with
    | zero => exact Relation.ReflTransGen.refl
    | succ n ih => exact Relation.ReflTransGen.head (hEn n) ih
  have hTG : ∀ (i d : Nat), Relation.TransGen (EdgeOf g) (f^[i+d+1] v) (f^[i] v) := by
    intro i d
    induction d with
    | zero => exact Relation.TransGen.single (hEn i)
    | succ d ih => exact Relation.TransGen.head (hEn (i+d+1)) ih
  have hmaps : ∀ n : Nat, n ∈ Finset.range
      (((keysOf g).filter (fun k => !out.contains k)).length + 1) →
      f^[n] v ∈ ((keysOf g).filter (fun k => !out.contains k)).toFinset := by
    intro n _
    rcases hUn n with ⟨h1, h2⟩
    rw [List.mem_toFinset]
    exact List.mem_filter.mpr ⟨h1, by simp [List.contains, List.elem_eq_mem, h2]⟩
  have hcard : (((keysOf g).filter (fun k => !out.contains k)).toFinset).card
      < (Finset.range (((keysOf g).filter (fun k => !out.contains k)).length + 1)).card := by
    rw [Finset.card_range]
    exact Nat.lt_succ_of_le (List.toFinset_card_le _)
  rcases Finset.exists_ne_map_eq_of_card_lt_of_maps_to hcard hmaps
    with ⟨i, _, j, _, hij, hxeq⟩
  rcases hij.lt_or_lt with hlt | hlt
  · have hd : j = i + (j - i - 1) + 1 := by omega
    refine ⟨f^[j] v, ?_, hRT j⟩
    have htg := hTG i (j - i - 1)
    rw [← hd] at htg
    rw [hxeq] at htg
    exact htg
  · have hd : i = j + (i - j - 1) + 1 := by omega
    refine ⟨f^[i] v, ?_, hRT i⟩
    have htg := hTG j (i - j - 1)
    rw [← hd] at htg
    rw [← hxeq] at htg
    exact htg

theorem edge_index_lt {g : Graph} {out : List Name} (hpost : KahnPost g out)
    {a b : Name} (hedge : EdgeOf g a b) (hb : b ∈ out) :
    a ∈ out ∧ out.indexOf a < out.indexOf b := by
  have ha : a ∈ out := hpost.hpred b hb a hedge
  have hab : a ≠ b := fun he => hpost.hself b hb (he ▸ hedge)
  refine ⟨ha, ?_⟩
  have hia : out.indexOf a < out.length := List.indexOf_lt_length.mpr ha
  have hib : out.indexOf b < out.length := List.indexOf_lt_length.mpr hb
  have hga : out.get ⟨out.indexOf a, hia⟩ = a := List.indexOf_get hia
  have hgb : out.get ⟨out.indexOf b, hib⟩ = b := List.indexOf_get hib
  rcases lt_trichotomy (out.indexOf a) (out.indexOf b) with h | h | h
  · exact h
  · exfalso
    apply hab
    rw [← hga, ← hgb]
    congr 1
    exact Fin.ext h
  · exfalso
    have h2 := List.pairwise_iff_get.mp hpost.hpair
      ⟨out.indexOf b, hib⟩ ⟨out.indexOf a, hia⟩ h
    rw [hga, hgb] at h2
    exact h2 hedge

theorem transGen_index_lt {g : Graph} {out : List Name} (hpost : KahnPost g out)
    {w v : Name} (h : Relation.TransGen (EdgeOf g) w v) :
    v ∈ out → w ∈ out ∧ out.indexOf w < out.indexOf v := by
  induction h with
  | single he => intro hv; exact edge_index_lt hpost he hv
  | tail h1 h2 ih =>
    intro hv
    rcases edge_index_lt hpost h2 hv with ⟨hb, hlt⟩
    rcases ih hb with ⟨hw, hlt2⟩
    exact ⟨hw, lt_trans hlt2 hlt⟩

theorem cycle_not_in_out {g : Graph} {out : List Name} (hpost : KahnPost g out)
    {c : Name} (hc : Relation.TransGen (EdgeOf g) c c) : c ∉ out := by
  intro hco
  rcases transGen_index_lt hpost hc hco with ⟨_, hlt⟩
  exact lt_irrefl _ hlt

theorem reflTransGen_not_out {g : Graph} {out : List Name} (hpost : KahnPost g out)
    {c v : Name} (h : Relation.ReflTransGen (EdgeOf g) c v) (hc : c ∉ out) : v ∉ out := by
  induction h with
  | refl => exact hc
  | tail h1 h2 ih =>
    intro hv
    exact ih (hpost.hpred _ hv _ h2)

theorem reflTransGen_key {g : Graph} (hcl : ClosedGraph g) {c v : Name}
    (h : Relation.ReflTransGen (EdgeOf g) c v) (hc : c ∈ keysOf g) : v ∈ keysOf g := by
  induction h with
  | refl => exact hc
  | tail h1 h2 ih => exact edge_target_key hcl h2

theorem cycle_in_keys {g : Graph} {c : Name} (hc : Relation.TransGen (EdgeOf g) c c) :
    c ∈ keysOf g := by
  have h2 : ∀ y, Relation.TransGen (EdgeOf g) c y → ∃ d, EdgeOf g c d := by
    intro y hy
    induction hy with
    | single h => exact ⟨_, h⟩
    | tail h1 h2 ih => exact ih
  rcases h2 c hc with ⟨d, hd⟩
  exact hd.1

/-- Claim C3: on every successor-closed acyclic dict graph (Python dict
keys are distinct, successor sets are over the keys), `topological_sort`
succeeds, its output is a permutation of the node set (every node
exactly once), and every edge `a -> b` has `a` placed strictly before
`b` in the output. -/
theorem C3_topological_sort (g : Graph) (hnd : (keysOf g).Nodup)
    (hcl : ClosedGraph g) (hac : Acyclic g) :
    ∃ l, topological_sort g = SortResult.ok l ∧ l.Perm (keysOf g)
      ∧ ∀ a b, EdgeOf g a b →
          ∃ i j, i < j ∧ l.get? i = some a ∧ l.get? j = some b := by
  rcases topological_sort_spec hnd hcl with ⟨out, hpost, heq⟩
  have hcover : ∀ v ∈ keysOf g, v ∈ out := by
    intro v hv
    by_contra hvo
    rcases unsorted_reaches_cycle hpost v hv hvo with ⟨c, hc, _⟩
    exact hac c hc
  have hperm : out.Perm (keysOf g) :=
    (List.perm_ext_iff_of_nodup hpost.hnodup hnd).mpr
      (fun a => ⟨fun h => hpost.hkeys a h, fun h => hcover a h⟩)
  have hlen : out.length = g.length := by
    have h1 := hperm.length_eq
    simpa [keysOf] using h1
  refine ⟨out, ?_, hperm, ?_⟩
  · rw [heq, if_pos hlen]
  · intro a b hedge
    have hbk : b ∈ keysOf g := edge_target_key hcl hedge
    have hbo : b ∈ out := hcover b hbk
    rcases edge_index_lt hpost hedge hbo with ⟨hao, hlt⟩
    have hia : out.indexOf a < out.length := List.indexOf_lt_length.mpr hao
    have hib : out.indexOf b < out.length := List.indexOf_lt_length.mpr hbo
    refine ⟨out.indexOf a, out.indexOf b, hlt, ?_, ?_⟩
    · rw [List.get?_eq_get hia, List.indexOf_get hia]
    · rw [List.get?_eq_get hib, List.indexOf_get hib]

theorem no_edges_acyclic {g : Graph} (h : ∀ a b, ¬ EdgeOf g a b) : Acyclic g := by
  intro a hc
  cases hc with
  | single h1 => exact h _ _ h1
  | tail h1 h2 => exact h _ _ h2

theorem singleton_no_edges : ∀ a b, ¬ EdgeOf [("a", ([] : List Name))] a b := by
  intro a b hedge
  rcases hedge with ⟨_, hb⟩
  unfold succsOf lookupSuccs at hb
  cases hfind : [("a", ([] : List Name))].find? (fun p => p.1 == a) with
  | none => rw [hfind] at hb; cases hb
  | some p =>
    rw [hfind] at hb
    have hp := List.mem_of_find?_eq_some hfind
    have hpe : p = ("a", []) := by simpa using hp
    subst hpe
    simpa using hb

/-- Claim C3 witness: the claim applied to the concrete one-node
successor-closed acyclic graph. -/
theorem C3_witness :
    ∃ l, topological_sort [("a", ([] : List Name))] = SortResult.ok l
      ∧ l.Perm (keysOf [("a", ([] : List Name))]) := by
  rcases C3_topological_sort [("a", ([] : List Name))] (by decide)
    (by unfold ClosedGraph; decide) (no_edges_acyclic singleton_no_edges)
    with ⟨l, h1, h2, _⟩
  exact ⟨l, h1, h2⟩

/-- Claim C4: on every successor-closed dict graph containing a cycle,
`topological_sort` fails with the circular-dependency error, and the
reported set of unordered names is exactly the set of nodes reachable
from some cycle: the cycle participants together with everything
transitively depending on them, not just one offending pair. -/
theorem C4_cycle_detection (g : Graph) (hnd : (keysOf g).Nodup) (hcl : ClosedGraph g)
    (hcyc : ∃ c, Relation.TransGen (EdgeOf g) c c) :
    ∃ rem, topological_sort g = SortResult.cycle rem
      ∧ ∀ v, (v ∈ rem ↔ ∃ c, Relation.TransGen (EdgeOf g) c c
          ∧ Relation.ReflTransGen (EdgeOf g) c v) := by
  rcases topological_sort_spec hnd hcl with ⟨out, hpost, heq⟩
  rcases hcyc with ⟨c0, hc0⟩
  have hc0k : c0 ∈ keysOf g := cycle_in_keys hc0
  have hc0o : c0 ∉ out := cycle_not_in_out hpost hc0
  have hlen : out.length ≠ g.length := by
    intro hl
    have hsub : out ⊆ keysOf g := fun x hx => hpost.hkeys x hx
    have hsp := List.subperm_of_subset hpost.hnodup hsub
    have hperm : out.Perm (keysOf g) := by
      apply hsp.perm_of_length_le
      have : (keysOf g).length = g.length := by simp [keysOf]
      omega
    exact hc0o (hperm.mem_iff.mpr hc0k)
  have hc0rem : c0 ∈ (keysOf g).filter (fun u => !out.contains u) :=
    List.mem_filter.mpr ⟨hc0k, by simp [List.contains, List.elem_eq_mem, hc0o]⟩
  have hne : ((keysOf g).filter (fun u => !out.contains u)).isEmpty = false := by
    cases he : ((keysOf g).filter (fun u => !out.contains u)).isEmpty
    · rfl
    · rw [List.isEmpty_iff] at he
      rw [he] at hc0rem
      cases hc0rem
  refine ⟨(keysOf g).filter (fun u => !out.contains u), ?_, ?_⟩
  · rw [heq, if_neg hlen, if_neg (by rw [hne]; exact Bool.false_ne_true)]
  · intro v
    constructor
    · intro hv
      rcases List.mem_filter.mp hv with ⟨hvk, hvo⟩
      have hvo2 : v ∉ out := by
        simpa [List.contains, List.elem_eq_mem] using hvo
      exact unsorted_reaches_cycle hpost v hvk hvo2
    · rintro ⟨c, hc, hreach⟩
      have hck : c ∈ keysOf g := cycle_in_keys hc
      have hco : c ∉ out := cycle_not_in_out hpost hc
      have hvk : v ∈ keysOf g := reflTransGen_key hcl hreach hck
      have hvo : v ∉ out := reflTransGen_not_out hpost hreach hco
      exact List.mem_filter.mpr ⟨hvk, by simp [List.contains, List.elem_eq_mem, hvo]⟩

/-- Claim C4 witness: the claim applied to the concrete three-cycle
A -> B -> C -> A. -/
theorem C4_witness :
    ∃ rem, topological_sort [("A", ["B"]), ("B", ["C"]), ("C", ["A"])]
      = SortResult.cycle rem := by
  have hAB : EdgeOf [("A", ["B"]), ("B", ["C"]), ("C", ["A"])] "A" "B" :=
    ⟨by decide, by decide⟩
  have hBC : EdgeOf [("A", ["B"]), ("B", ["C"]), ("C", ["A"])] "B" "C" :=
    ⟨by decide, by decide⟩
  have hCA : EdgeOf [("A", ["B"]), ("B", ["C"]), ("C", ["A"])] "C" "A" :=
    ⟨by decide, by decide⟩
  rcases C4_cycle_detection [("A", ["B"]), ("B", ["C"]), ("C", ["A"])] (by decide)
    (by unfold ClosedGraph; decide)
    ⟨"A", Relation.TransGen.head hAB (Relation.TransGen.head hBC
      (Relation.TransGen.single hCA))⟩
    with ⟨rem, h1, _⟩
  exact ⟨rem, h1⟩

/-! Claims C5 and C1: the crawl and the end-to-end module list. -/

theorem crawlLoop_eq_nil (ports : PortsTree) (st : CrawlState) (hq : st.queue = []) :
    crawlLoop ports st = st := by
  rw [crawlLoop]
  split
  · rfl
  · rename_i current rest heq
    rw [hq] at heq
    cases heq

theorem crawlLoop_eq_skip (ports : PortsTree) (st : CrawlState) (current : Name)
    (rest : List Name) (hq : st.queue = current :: rest)
    (hp : st.processed.contains current = true) :
    crawlLoop ports st
      = crawlLoop ports
          (CrawlState.mk rest st.processed st.modules st.depsMap st.enqueueLog) := by
  rw [crawlLoop]
  split
  · rename_i heq
    rw [hq] at heq
    cases heq
  · rename_i c r heq
    rw [hq] at heq
    injection heq with h1 h2
    subst h1
    subst h2
    rw [dif_pos hp]

theorem crawlLoop_eq_missing (ports : PortsTree) (st : CrawlState) (current : Name)
    (rest : List Name) (hq : st.queue = current :: rest)
    (hp : ¬ st.processed.contains current = true)
    (hl : lookupPort ports current = none) :
    crawlLoop ports st
      = crawlLoop ports
          (CrawlState.mk rest st.processed st.modules st.depsMap st.enqueueLog) := by
  rw [crawlLoop]
  split
  · rename_i heq
    rw [hq] at heq
    cases heq
  · rename_i c r heq
    rw [hq] at heq
    injection heq with h1 h2
    subst h1
    subst h2
    rw [dif_neg hp]
    split
    · rfl
    · rename_i pr hl2
      rw [hl] at hl2
      cases hl2

theorem crawlLoop_eq_process (ports : PortsTree) (st : CrawlState) (current : Name)
    (rest : List Name) (pr : PortRec) (hq : st.queue = current :: rest)
    (hp : ¬ st.processed.contains current = true)
    (hl : lookupPort ports current = some pr) :
    crawlLoop ports st
      = crawlLoop ports
          (CrawlState.mk
            (scanDeps (st.processed ++ [current]) current rest st.depsMap st.enqueueLog
              (pr.directDeps ++ pr.hostDeps)).1
            (st.processed ++ [current])
            (st.modules ++ [(current, pr.modrec)])
            (scanDeps (st.processed ++ [current]) current rest st.depsMap st.enqueueLog
              (pr.directDeps ++ pr.hostDeps)).2.1
            (scanDeps (st.processed ++ [current]) current rest st.depsMap st.enqueueLog
              (pr.directDeps ++ pr.hostDeps)).2.2) := by
  rw [crawlLoop]
  split
  · rename_i heq
    rw [hq] at heq
    cases heq
  · rename_i c r heq
    rw [hq] at heq
    injection heq with h1 h2
    subst h1
    subst h2
    rw [dif_neg hp]
    split
    · rename_i hl2
      rw [hl] at hl2
      cases hl2
    · rename_i pr2 hl2
      rw [hl] at hl2
      injection hl2 with h3
      subst h3
      rfl

/-- Claim C5 (amended): the crawl marks each name processed at most once
and stores exactly one module record per processed name (extraction at
most once); together with the totality of `crawl` this is the
termination half of the claim.  The enqueued-at-most-once half is false
(see the counterexample): a name without a portfile is never marked
processed and can be re-enqueued by each later dependent. -/
theorem C5_crawl_extraction (ports : PortsTree) (roots : List Name) :
    (crawl ports roots).processed.Nodup
    ∧ (crawl ports roots).modules.map Prod.fst = (crawl ports roots).processed := by
  suffices h : ∀ st : CrawlState,
      st.processed.Nodup ∧ st.modules.map Prod.fst = st.processed →
      (crawlLoop ports st).processed.Nodup
      ∧ (crawlLoop ports st).modules.map Prod.fst = (crawlLoop ports st).processed by
    exact h (CrawlState.mk roots [] [] [] []) ⟨List.nodup_nil, rfl⟩
  intro st
  induction st using crawlLoop.induct ports with
  | case1 st hq =>
    intro h
    rw [crawlLoop_eq_nil ports st hq]
    exact h
  | case2 st current rest hq hp ih =>
    intro h
    rw [crawlLoop_eq_skip ports st current rest hq hp]
    exact ih h
  | case3 st current rest hq hp hl ih =>
    intro h
    rw [crawlLoop_eq_missing ports st current rest hq hp hl]
    exact ih h
  | case4 st current rest hq hp pr hl p2 r ih =>
    intro h
    rw [crawlLoop_eq_process ports st current rest pr hq hp hl]
    apply ih
    constructor
    · rw [List.nodup_append]
      refine ⟨h.1, List.nodup_singleton current, ?_⟩
      intro x hx hx2
      have hxc : x = current := List.mem_singleton.mp hx2
      subst hxc
      apply hp
      simp [List.contains, List.elem_eq_mem, hx]
    · show (st.modules ++ [(current, pr.modrec)]).map Prod.fst = st.processed ++ [current]
      rw [List.map_append, h.2]
      rfl

/-- Minimal module record used as concrete test fixture. -/
def tinyModule (n : Name) : ModuleRecord := ModuleRecord.mk n true [] "cmake" [] []

/-- Claim C5 counterexample: with ports `a` (deps `x`, `b`) and `b`
(dep `x`) where `x` has no portfile, the crawl from root `a` enqueues
`x` twice - once while processing `a` and again while processing `b` -
because a name whose portfile is missing is skipped without ever being
marked visited, so the visited-or-queued guard does not block its
re-enqueue. -/
theorem C5_counterexample :
    (crawl [("a", PortRec.mk (tinyModule "a") ["x", "b"] []),
        ("b", PortRec.mk (tinyModule "b") ["x"] [])] ["a"]).enqueueLog = ["x", "b", "x"]
    ∧ ¬ ((crawl [("a", PortRec.mk (tinyModule "a") ["x", "b"] []),
        ("b", PortRec.mk (tinyModule "b") ["x"] [])] ["a"]).enqueueLog.count "x" ≤ 1) := by
  have h : (crawl [("a", PortRec.mk (tinyModule "a") ["x", "b"] []),
      ("b", PortRec.mk (tinyModule "b") ["x"] [])] ["a"]).enqueueLog = ["x", "b", "x"] := by
    simp [crawl, crawlLoop, lookupPort, scanDeps, setAdd, getSet, setSet, List.find?]
  refine ⟨h, ?_⟩
  rw [h]
  decide

/-- Claim C1 (code bug evidence): a root package `a` with no
dependencies is crawled and receives a module record, yet the final
sorted module list of the pipeline is empty - `a` never becomes a node
of the graph handed to the topological sorter, because the node-ensuring
pass iterates only over `package_deps_map`, which has no entry for a
package with zero recorded dependencies. -/
theorem C1_zero_dep_module_dropped :
    (crawl [("a", PortRec.mk (tinyModule "a") [] [])] ["a"]).modules
        = [("a", tinyModule "a")]
    ∧ mainModules [("a", PortRec.mk (tinyModule "a") [] [])] ["a"] = some [] := by
  constructor
  · simp [crawl, crawlLoop, lookupPort, scanDeps, setAdd, getSet, setSet, List.find?]
  · simp [mainModules, crawl, crawlLoop, lookupPort, scanDeps, setAdd, getSet, setSet,
      buildGraphForSort, filterGraph, topological_sort, computeInDegree, kahnLoop, keysOf,
      lookupModule, List.find?]
